import Mathlib

/-!
# Verification of the orb-flatgeobuf property codec and geometry packer

Shallow embedding of the repository's `properties.go` and `geometry.go`:
the column-schema inferencer (`inferColumns`, `inferColumnType`,
`promoteColumnType`), the property codec (`encodeProperties`,
`writePropertyValue`, `decodeProperties`, `readPropertyValue`) and the
geometry packer (`geometryToFGB`, `geometryFromFGB` and their helpers).

Modelling conventions:
* Go byte slices are `List Nat` whose entries are read modulo 256;
  machine-integer casts are explicit `% 2^w` operations.
* Go's `float32`/`float64` values are carried by their IEEE-754 bit
  patterns (the code never does arithmetic on them, it only moves the
  bit patterns through `math.Float64bits`/`math.Float64frombits`).
* Go strings and `[]byte` values are byte lists.
* A `map[string]T` iteration is one enumeration order of the map's
  entries, modelled as an association list; properties of the code that
  must hold for every iteration order are quantified over permutations.
-/

set_option maxHeartbeats 1000000

namespace OrbFlatgeobuf

/-- The FlatGeobuf column-type enumeration (`flattypes.ColumnType`). -/
inductive ColumnType where
  | bool
  | byte
  | ubyte
  | short
  | ushort
  | int
  | uint
  | long
  | ulong
  | float
  | double
  | string
  | json
  | dateTime
  | binary
deriving DecidableEq, Fintype

/-- The `numericTypes` rank map of `promoteColumnType` (properties.go:121-133):
`some rank` for the eleven numeric-lattice members, `none` otherwise. -/
def numericRank : ColumnType → Option Nat
  | .bool => some 0
  | .byte => some 1
  | .ubyte => some 2
  | .short => some 3
  | .ushort => some 4
  | .int => some 5
  | .uint => some 6
  | .long => some 7
  | .ulong => some 8
  | .float => some 9
  | .double => some 10
  | _ => none

/-- `promoteColumnType` (properties.go:105-147): returns the more general
of two column types. -/
def promoteColumnType (a b : ColumnType) : ColumnType :=
  if a = b then a
  else if a = .json ∨ b = .json then .json
  else if a = .string ∨ b = .string then .string
  else
    match numericRank a, numericRank b with
    | some rankA, some rankB => if rankA > rankB then a else b
    | _, _ => .json

/-- A Go value as it can appear in `geojson.Properties`
(`map[string]interface{}`).  One constructor per group of Go dynamic types
that `properties.go` treats identically:
`vInt` is Go `int`; `vInt32` covers `int8`/`int16`/`int32`;
`vUInt` is Go `uint`; `vUInt32` covers `uint8`/`uint16`/`uint32`;
floats are carried as IEEE-754 bit patterns; `vString` is the string's
bytes; `vJson` is a structured (map/array) value represented by its
`encoding/json` serialization bytes, which is the only way the code
observes such a value.  (`json.Number` and other exotic dynamic types
never produced by the geojson pipeline are outside the modelled
universe.) -/
inductive Value where
  | null
  | vBool (b : Bool)
  | vInt (n : Int)
  | vInt32 (n : Int)
  | vInt64 (n : Int)
  | vUInt (n : Nat)
  | vUInt32 (n : Nat)
  | vUInt64 (n : Nat)
  | vFloat32 (bits : Nat)
  | vFloat64 (bits : Nat)
  | vString (s : List Nat)
  | vJson (s : List Nat)
deriving DecidableEq

/-- `inferColumnType` (properties.go:64-102): the FlatGeobuf column type for
a dynamic value.  `nil` maps to String (line 66); a Go `int` maps to Int
when within `int32` range, else Long (lines 72-76). -/
def inferColumnType : Value → ColumnType
  | .null => .string
  | .vBool _ => .bool
  | .vInt n => if -(2 ^ 31) ≤ n ∧ n ≤ 2 ^ 31 - 1 then .int else .long
  | .vInt32 _ => .int
  | .vInt64 _ => .long
  | .vUInt _ => .uint
  | .vUInt32 _ => .uint
  | .vUInt64 _ => .ulong
  | .vFloat32 _ => .float
  | .vFloat64 _ => .double
  | .vString _ => .string
  | .vJson _ => .json

/-- A schema column (`writer.Column` / `flattypes.Column`): name, title,
type, nullability.  `inferColumns` always sets `title := name` and
`nullable := true`. -/
structure Column where
  name : String
  title : String
  type : ColumnType
  nullable : Bool
deriving DecidableEq

/-- One record of feature properties: one enumeration order of the entries
of a `geojson.Properties` map. -/
abbrev Record := List (String × Value)

/-- Association-list lookup (first binding wins), the model of reading a Go
map. -/
def alookup {β : Type} (k : String) : List (String × β) → Option β
  | [] => none
  | (k', v) :: rest => if k = k' then some v else alookup k rest

/-- Replace the binding of `n` (if present) by `t`, keeping its position:
the model of assigning `columnTypes[n] = t` to an existing key. -/
def updateAt : List (String × ColumnType) → String → ColumnType → List (String × ColumnType)
  | [], _, _ => []
  | (k, t) :: rest, n, t' => if n = k then (k, t') :: rest else (k, t) :: updateAt rest n t'

/-- The inner loop body of `inferColumns` (properties.go:31-46) on one
`(name, value)` property.  The state list represents the pair of Go
structures `columnTypes` (the bindings) and `columnOrder` (the keys, in
first-occurrence order). -/
def observeEntry (st : List (String × ColumnType)) (n : String) (v : Value) :
    List (String × ColumnType) :=
  match alookup n st with
  | some t => updateAt st n (promoteColumnType t (inferColumnType v))
  | none => st ++ [(n, inferColumnType v)]

/-- Folding `observeEntry` over one feature's properties, in the given
enumeration order.  A feature with `nil` properties contributes the empty
record. -/
def observeRecord (st : List (String × ColumnType)) (rec : Record) :
    List (String × ColumnType) :=
  rec.foldl (fun st e => observeEntry st e.1 e.2) st

/-- `inferColumns` (properties.go:18-61): scan all features' properties and
build the ordered column list (every column gets `title := name` and
`nullable := true`, lines 52-57).  The Go empty-input early return yields
`nil`, i.e. the empty list. -/
def inferColumns (features : List Record) : List Column :=
  (features.foldl observeRecord []).map fun e => ⟨e.1, e.1, e.2, true⟩

/-- The values observed for attribute name `n` in one record, in
enumeration order. -/
def valuesOfRec (n : String) (rec : Record) : List Value :=
  rec.filterMap fun e => if e.1 = n then some e.2 else none

/-- The values observed for attribute name `n` across a feature sequence,
in record order. -/
def valuesOf (n : String) (features : List Record) : List Value :=
  (features.map (valuesOfRec n)).flatten

/-- One promotion step of `inferColumns` (properties.go:38-45): absorb one
observed value's inferred type into the column's current type. -/
def promoteStep (acc : Option ColumnType) (v : Value) : Option ColumnType :=
  match acc with
  | none => some (inferColumnType v)
  | some t => some (promoteColumnType t (inferColumnType v))

/-- The left-to-right promotion fold of `inferColumns` for one column,
starting from an optional previously-committed type. -/
def foldTypes (o : Option ColumnType) (vs : List Value) : Option ColumnType :=
  vs.foldl promoteStep o

/-- The declared type of the column named `n` in a column list (the schema
lookup used when reasoning about `inferColumns` output). -/
def typeOfColumn : List Column → String → Option ColumnType
  | [], _ => none
  | c :: rest, n => if c.name = n then some c.type else typeOfColumn rest n

theorem alookup_updateAt (st : List (String × ColumnType)) (n : String) (t' : ColumnType)
    (k : String) :
    alookup k (updateAt st n t') =
      if k = n then (alookup n st).map fun _ => t' else alookup k st := by
  induction st with
  | nil => simp [updateAt, alookup]
  | cons e rest ih =>
    obtain ⟨k', v⟩ := e
    by_cases hnk : n = k'
    · subst hnk
      by_cases hk : k = n <;> simp [updateAt, alookup, hk]
    · by_cases hk : k = k'
      · subst hk
        have hkn : ¬k = n := fun h => hnk h.symm
        simp [updateAt, alookup, hnk, hkn, ih]
      · by_cases hkn : k = n
        · subst hkn
          simp [updateAt, alookup, hnk, hk, ih]
        · simp [updateAt, alookup, hnk, hk, hkn, ih]

theorem alookup_append {β : Type} (l₁ l₂ : List (String × β)) (k : String) :
    alookup k (l₁ ++ l₂) =
      match alookup k l₁ with
      | some t => some t
      | none => alookup k l₂ := by
  induction l₁ with
  | nil => simp [alookup]
  | cons e rest ih =>
    by_cases hk : k = e.1 <;> simp [alookup, hk, ih]

theorem alookup_observeEntry (st : List (String × ColumnType)) (n : String) (v : Value)
    (k : String) :
    alookup k (observeEntry st n v) =
      if k = n then
        match alookup n st with
        | some t => some (promoteColumnType t (inferColumnType v))
        | none => some (inferColumnType v)
      else alookup k st := by
  unfold observeEntry
  cases hn : alookup n st with
  | some t =>
    rw [alookup_updateAt]
    by_cases hk : k = n <;> simp [hk, hn]
  | none =>
    rw [alookup_append]
    by_cases hk : k = n
    · subst hk
      simp [hn, alookup]
    · cases hkk : alookup k st <;> simp [hk, hkk, alookup]

theorem foldTypes_append (o : Option ColumnType) (vs₁ vs₂ : List Value) :
    foldTypes o (vs₁ ++ vs₂) = foldTypes (foldTypes o vs₁) vs₂ := by
  simp [foldTypes, List.foldl_append]

theorem alookup_observeRecord (st : List (String × ColumnType)) (rec : Record) (k : String) :
    alookup k (observeRecord st rec) = foldTypes (alookup k st) (valuesOfRec k rec) := by
  induction rec generalizing st with
  | nil => simp [observeRecord, valuesOfRec, foldTypes]
  | cons e rest ih =>
    obtain ⟨n, v⟩ := e
    have hstep : observeRecord st ((n, v) :: rest) = observeRecord (observeEntry st n v) rest := by
      simp [observeRecord]
    rw [hstep, ih, alookup_observeEntry]
    by_cases hk : k = n
    · subst hk
      cases hkk : alookup k st <;>
        simp [valuesOfRec, foldTypes, promoteStep, hkk]
    · have : ¬n = k := fun h => hk h.symm
      simp [valuesOfRec, this, hk]

theorem alookup_foldState (features : List Record) (st : List (String × ColumnType))
    (k : String) :
    alookup k (features.foldl observeRecord st) =
      foldTypes (alookup k st) (valuesOf k features) := by
  induction features generalizing st with
  | nil => simp [valuesOf, foldTypes]
  | cons rec rest ih =>
    simp only [List.foldl_cons, ih, alookup_observeRecord, valuesOf, List.map_cons,
      List.flatten_cons, ← foldTypes_append]

theorem typeOfColumn_map (st : List (String × ColumnType)) (n : String) :
    typeOfColumn (st.map fun e => ⟨e.1, e.1, e.2, true⟩) n = alookup n st := by
  induction st with
  | nil => simp [typeOfColumn, alookup]
  | cons e rest ih =>
    by_cases hk : e.1 = n
    · subst hk
      simp [typeOfColumn, alookup]
    · have : ¬n = e.1 := fun h => hk h.symm
      simp [typeOfColumn, alookup, hk, this, ih]

/-- The central schema-inference characterization: the type that
`inferColumns` assigns to the column named `n` is the left-to-right
promotion fold over the inferred elementary types of **all** values
observed under `n` (null values included, entering as String). -/
theorem inferColumns_typeOf (features : List Record) (n : String) :
    typeOfColumn (inferColumns features) n = foldTypes none (valuesOf n features) := by
  unfold inferColumns
  rw [typeOfColumn_map, alookup_foldState]
  simp [alookup]

/-- Membership test for the image of `inferColumnType`: the only column
types that can ever enter a promotion fold. -/
def goodCT : ColumnType → Bool
  | .bool | .int | .uint | .long | .ulong | .float | .double | .string | .json => true
  | _ => false

theorem goodCT_infer (v : Value) : goodCT (inferColumnType v) = true := by
  cases v with
  | vInt n =>
    simp only [inferColumnType]
    split <;> rfl
  | _ => rfl

theorem promoteColumnType_comm (a b : ColumnType) :
    promoteColumnType a b = promoteColumnType b a := by
  revert a b
  decide

theorem goodCT_promote :
    ∀ a b : ColumnType, goodCT a = true → goodCT b = true →
      goodCT (promoteColumnType a b) = true := by
  decide

/-- `promoteColumnType` is left-commutative on the image of
`inferColumnType` (it is not left-commutative on the full enumeration:
e.g. folding String then DateTime differs from DateTime then String; but
DateTime and Binary are never inferred). -/
theorem promoteColumnType_left_comm :
    ∀ a b c : ColumnType, goodCT a = true → goodCT b = true → goodCT c = true →
      promoteColumnType (promoteColumnType a b) c =
        promoteColumnType (promoteColumnType a c) b := by
  decide

/-- An accumulator that can actually occur in a promotion fold: nothing
yet, or a type in the image of the fold. -/
def goodAcc : Option ColumnType → Prop
  | none => True
  | some t => goodCT t = true

theorem goodAcc_promoteStep (o : Option ColumnType) (v : Value) (ho : goodAcc o) :
    goodAcc (promoteStep o v) := by
  cases o with
  | none => exact goodCT_infer v
  | some t => exact goodCT_promote t (inferColumnType v) ho (goodCT_infer v)

theorem promoteStep_swap (o : Option ColumnType) (a b : Value) (ho : goodAcc o) :
    promoteStep (promoteStep o a) b = promoteStep (promoteStep o b) a := by
  cases o with
  | none => simp [promoteStep, promoteColumnType_comm]
  | some t =>
    simp only [promoteStep]
    rw [promoteColumnType_left_comm t (inferColumnType a) (inferColumnType b) ho
      (goodCT_infer a) (goodCT_infer b)]

/-- The promotion fold is invariant under permutation of the observed
values, for any reachable accumulator. -/
theorem foldTypes_perm {l₁ l₂ : List Value} (p : l₁.Perm l₂) :
    ∀ o : Option ColumnType, goodAcc o → foldTypes o l₁ = foldTypes o l₂ := by
  induction p with
  | nil => intro o _; rfl
  | cons x _ ih =>
    intro o ho
    simpa [foldTypes] using ih (promoteStep o x) (goodAcc_promoteStep o x ho)
  | swap x y l =>
    intro o ho
    simp only [foldTypes, List.foldl_cons]
    rw [promoteStep_swap o y x ho]
  | trans _ _ ih₁ ih₂ =>
    intro o ho
    exact (ih₁ o ho).trans (ih₂ o ho)

theorem valuesOf_cons (n : String) (rec : Record) (rest : List Record) :
    valuesOf n (rec :: rest) = valuesOfRec n rec ++ valuesOf n rest := by
  simp [valuesOf]

theorem valuesOf_perm {fs₁ fs₂ : List Record} (h : List.Forall₂ List.Perm fs₁ fs₂)
    (n : String) : (valuesOf n fs₁).Perm (valuesOf n fs₂) := by
  induction h with
  | nil => simp [valuesOf]
  | cons hr _ ih =>
    rw [valuesOf_cons, valuesOf_cons]
    exact (hr.filterMap _).append ih

theorem mem_keys_iff_isSome {β : Type} (st : List (String × β)) (n : String) :
    n ∈ st.map Prod.fst ↔ (alookup n st).isSome := by
  induction st with
  | nil => simp [alookup]
  | cons e rest ih =>
    by_cases hk : n = e.1
    · simp [alookup, hk]
    · have : ¬e.1 = n := fun h => hk h.symm
      simp [alookup, hk, this, ih]

theorem keys_updateAt (st : List (String × ColumnType)) (n : String) (t' : ColumnType) :
    (updateAt st n t').map Prod.fst = st.map Prod.fst := by
  induction st with
  | nil => rfl
  | cons e rest ih =>
    obtain ⟨k, v⟩ := e
    by_cases hk : n = k <;> simp [updateAt, hk, ih]

theorem nodup_keys_observeEntry (st : List (String × ColumnType)) (n : String) (v : Value)
    (h : (st.map Prod.fst).Nodup) : ((observeEntry st n v).map Prod.fst).Nodup := by
  unfold observeEntry
  cases hn : alookup n st with
  | some t => rw [keys_updateAt]; exact h
  | none =>
    have hmem : n ∉ st.map Prod.fst := by
      rw [mem_keys_iff_isSome, hn]
      simp
    simp [List.nodup_append, h, hmem]

theorem nodup_keys_observeRecord (st : List (String × ColumnType)) (rec : Record)
    (h : (st.map Prod.fst).Nodup) : ((observeRecord st rec).map Prod.fst).Nodup := by
  induction rec generalizing st with
  | nil => exact h
  | cons e rest ih =>
    have hstep : observeRecord st (e :: rest) = observeRecord (observeEntry st e.1 e.2) rest := by
      simp [observeRecord]
    rw [hstep]
    exact ih _ (nodup_keys_observeEntry st e.1 e.2 h)

theorem nodup_keys_foldState (features : List Record) (st : List (String × ColumnType))
    (h : (st.map Prod.fst).Nodup) :
    ((features.foldl observeRecord st).map Prod.fst).Nodup := by
  induction features generalizing st with
  | nil => exact h
  | cons rec rest ih =>
    exact ih _ (nodup_keys_observeRecord st rec h)

theorem mem_iff_alookup {β : Type} (st : List (String × β))
    (hnd : (st.map Prod.fst).Nodup) (n : String) (t : β) :
    (n, t) ∈ st ↔ alookup n st = some t := by
  induction st with
  | nil => simp [alookup]
  | cons e rest ih =>
    obtain ⟨k, v⟩ := e
    simp only [List.map_cons, List.nodup_cons] at hnd
    by_cases hk : n = k
    · subst hk
      have : (n, t) ∉ rest := fun hmem => hnd.1 (List.mem_map.mpr ⟨(n, t), hmem, rfl⟩)
      simp only [List.mem_cons, alookup, if_pos rfl]
      constructor
      · rintro (h | h)
        · exact congrArg some (congrArg Prod.snd h.symm) ▸ by
            cases h
            rfl
        · exact absurd h this
      · intro h
        left
        cases h
        rfl
    · simp [alookup, hk, ih hnd.2, Prod.ext_iff]

/-- C4 counterexample: two enumeration orders of the same single-feature
property map (Go map iteration order is not deterministic) give different
ordered column lists from `inferColumns`. -/
theorem c4_counterexample :
    ([("a", Value.vInt 1), ("b", Value.vBool true)] : Record).Perm
        [("b", Value.vBool true), ("a", Value.vInt 1)] ∧
      inferColumns [[("a", Value.vInt 1), ("b", Value.vBool true)]] ≠
        inferColumns [[("b", Value.vBool true), ("a", Value.vInt 1)]] := by
  constructor
  · exact List.Perm.swap _ _ _
  · decide

/-- C4 (amended): `inferColumns` is deterministic up to the enumeration
order of each record's property map: presenting every record's properties
in any permuted order yields a column list that is a permutation of the
original — same column set, same per-name types, same nullability — though
not necessarily in the same positions. -/
theorem c4_infer_deterministic_up_to_order (fs₁ fs₂ : List Record)
    (h : List.Forall₂ List.Perm fs₁ fs₂) :
    (inferColumns fs₁).Perm (inferColumns fs₂) := by
  have hlook : ∀ n, alookup n (fs₁.foldl observeRecord []) =
      alookup n (fs₂.foldl observeRecord []) := by
    intro n
    rw [alookup_foldState, alookup_foldState]
    exact foldTypes_perm (valuesOf_perm h n) _ trivial
  have hnd₁ : (((fs₁.foldl observeRecord []).map Prod.fst)).Nodup :=
    nodup_keys_foldState fs₁ [] (by simp)
  have hnd₂ : (((fs₂.foldl observeRecord []).map Prod.fst)).Nodup :=
    nodup_keys_foldState fs₂ [] (by simp)
  have hperm : (fs₁.foldl observeRecord []).Perm (fs₂.foldl observeRecord []) := by
    rw [List.perm_ext_iff_of_nodup (hnd₁.of_map _) (hnd₂.of_map _)]
    rintro ⟨n, t⟩
    rw [mem_iff_alookup _ hnd₁, mem_iff_alookup _ hnd₂, hlook]
  exact hperm.map _

theorem c4_infer_deterministic_up_to_order_witness :
    (inferColumns [[("a", Value.vInt 1), ("b", Value.vBool true)]]).Perm
      (inferColumns [[("b", Value.vBool true), ("a", Value.vInt 1)]]) :=
  c4_infer_deterministic_up_to_order _ _
    (List.Forall₂.cons (List.Perm.swap _ _ _) List.Forall₂.nil)

/-- C5 counterexample: a null observation is inferred as String and does
participate in promotion — a column observed as null then as the int 5 is
typed String by the code, while the fold over only the non-null values
would give Int. -/
theorem c5_counterexample :
    typeOfColumn (inferColumns [[("v", Value.null)], [("v", Value.vInt 5)]]) "v" =
        some ColumnType.string ∧
      foldTypes none ((valuesOf "v" [[("v", Value.null)], [("v", Value.vInt 5)]]).filter
          (fun v => v ≠ Value.null)) = some ColumnType.int ∧
      ColumnType.string ≠ ColumnType.int := by
  refine ⟨by decide, by decide, by decide⟩

/-- C5 (amended): null observations do participate in type promotion, as
String (`inferColumnType nil = String`): every column's inferred type is
the left-to-right fold of promote over the inferred elementary types of
all its observed values, nulls included; a column observed only as null
still defaults to String. -/
theorem c5_null_promotes_as_string :
    (inferColumnType Value.null = ColumnType.string) ∧
      (∀ (fs : List Record) (n : String),
        typeOfColumn (inferColumns fs) n = foldTypes none (valuesOf n fs)) ∧
      (∀ (fs : List Record) (n : String),
        valuesOf n fs ≠ [] → (∀ v ∈ valuesOf n fs, v = Value.null) →
          typeOfColumn (inferColumns fs) n = some ColumnType.string) := by
  refine ⟨rfl, inferColumns_typeOf, ?_⟩
  intro fs n hne hnull
  rw [inferColumns_typeOf]
  have : ∀ vs : List Value, (∀ v ∈ vs, v = Value.null) →
      foldTypes (some ColumnType.string) vs = some ColumnType.string := by
    intro vs
    induction vs with
    | nil => intro _; rfl
    | cons v rest ih =>
      intro hv
      have hv0 : v = Value.null := hv v (by simp)
      subst hv0
      have : foldTypes (some ColumnType.string) (Value.null :: rest) =
          foldTypes (some ColumnType.string) rest := by
        simp [foldTypes, promoteStep, inferColumnType, promoteColumnType]
      rw [this]
      exact ih fun w hw => hv w (by simp [hw])
  cases hvs : valuesOf n fs with
  | nil => exact absurd hvs hne
  | cons v rest =>
    have hv0 : v = Value.null := hnull v (by simp [hvs])
    subst hv0
    have hstep : foldTypes none (Value.null :: rest) =
        foldTypes (some ColumnType.string) rest := by
      simp [foldTypes, promoteStep, inferColumnType]
    rw [hstep]
    exact this rest fun w hw => hnull w (by simp [hvs, hw])

theorem c5_null_promotes_as_string_witness :
    typeOfColumn (inferColumns [[("a", Value.null)]]) "a" = some ColumnType.string :=
  c5_null_promotes_as_string.2.2 [[("a", Value.null)]] "a" (by decide) (by decide)

/-- C8: Type promotion is commutative and idempotent: for every pair of
column types `a` and `b`, `promoteColumnType a b = promoteColumnType b a`,
and for every column type `a`, `promoteColumnType a a = a`. -/
theorem c8_promote_comm_idem :
    (∀ a b : ColumnType, promoteColumnType a b = promoteColumnType b a) ∧
      (∀ a : ColumnType, promoteColumnType a a = a) := by
  constructor
  · decide
  · decide

/-! ## Property codec — encode (properties.go:151-290) -/

/-- `w` bytes of `n`, little-endian (the `binary.LittleEndian.PutUintXX`
family). -/
def bytesLE (w n : Nat) : List Nat :=
  (List.range w).map fun i => n / 256 ^ i % 256

/-- The two's-complement bit pattern of an integer in `w` bits (the Go
`uintXX(intXX(v))` cast chain). -/
def intBits (w : Nat) (n : Int) : Nat :=
  (n % (2 ^ w : Int)).toNat

/-- `writePropertyValue` (properties.go:182-290).  The Go function takes
the resolved column but never reads it: its first statement is
`colType := inferColumnType(value)` (with the comment "For now, infer
from value"), so the bytes are a function of the value alone.  The model
fuses that dispatch with the per-dynamic-type conversions (`toInt64`,
`toUint64`, `toFloat64`, `toString`), which always succeed on the
matching inferred type, so a non-null value always produces at least one
byte.  String/Json values append their bytes plus a 0x00 terminator.
The Byte/UByte/Short/UShort/DateTime/Binary branches of the Go switch are
unreachable: `inferColumnType` never returns those types. -/
def writePropertyValue : Value → List Nat
  | .null => [110, 117, 108, 108, 0]
  | .vBool b => [if b then 1 else 0]
  | .vInt n =>
    if -(2 ^ 31) ≤ n ∧ n ≤ 2 ^ 31 - 1 then bytesLE 4 (intBits 32 n)
    else bytesLE 8 (intBits 64 n)
  | .vInt32 n => bytesLE 4 (intBits 32 n)
  | .vInt64 n => bytesLE 8 (intBits 64 n)
  | .vUInt n => bytesLE 4 (n % 2 ^ 32)
  | .vUInt32 n => bytesLE 4 (n % 2 ^ 32)
  | .vUInt64 n => bytesLE 8 (n % 2 ^ 64)
  | .vFloat32 bits => bytesLE 4 (bits % 2 ^ 32)
  | .vFloat64 bits => bytesLE 8 (bits % 2 ^ 64)
  | .vString s => s.map (· % 256) ++ [0]
  | .vJson s => s.map (· % 256) ++ [0]

/-- `encodeProperties` (properties.go:151-179): for each property in the
record's enumeration order, skip nulls and names not in the column map,
otherwise emit the 2-byte little-endian column index followed by the
value bytes.  (For an index at or beyond the column count the Go code
panics on `columns[colIndex]`; such maps are never built by the writer
and are modelled as emitting nothing.) -/
def encodeProperties (props : Record) (columns : List Column)
    (columnMap : List (String × Nat)) : List Nat :=
  if columns = [] then []
  else
    props.foldl
      (fun buf e =>
        if e.2 = Value.null then buf
        else
          match alookup e.1 columnMap with
          | none => buf
          | some colIndex =>
            if colIndex < columns.length then
              buf ++ bytesLE 2 (colIndex % 2 ^ 16) ++ writePropertyValue e.2
            else buf)
      []

/-- Modelled from the spec (§4.2): the fixed byte width that the declared
column type dictates for a value's encoding (`none` for the
variable-width String/Json/DateTime/Binary types). -/
def declaredWidth : ColumnType → Option Nat
  | .bool => some 1
  | .byte => some 1
  | .ubyte => some 1
  | .short => some 2
  | .ushort => some 2
  | .int => some 4
  | .uint => some 4
  | .float => some 4
  | .long => some 8
  | .ulong => some 8
  | .double => some 8
  | _ => none

/-! ## Property codec — decode (properties.go:293-447) -/

/-- A decoded property value, one constructor per Go result type of
`readPropertyValue` (floats again carried as IEEE-754 bit patterns,
strings and byte slices as byte lists).  A Json value is represented by
the scanned byte slice: the Go code stores `json.Unmarshal` of those
bytes, or the raw text as a string when parsing fails — either way a pure
function of the same bytes. -/
inductive PropValue where
  | pvBool (b : Bool)
  | pvInt8 (n : Int)
  | pvUInt8 (n : Nat)
  | pvInt16 (n : Int)
  | pvUInt16 (n : Nat)
  | pvInt32 (n : Int)
  | pvUInt32 (n : Nat)
  | pvInt64 (n : Int)
  | pvUInt64 (n : Nat)
  | pvFloat32 (bits : Nat)
  | pvFloat64 (bits : Nat)
  | pvString (s : List Nat)
  | pvJson (s : List Nat)
  | pvBinary (s : List Nat)
deriving DecidableEq

/-- Little-endian value of a byte list (`binary.LittleEndian.UintXX` on a
`w`-byte slice when applied to `data.take w`). -/
def natLE : List Nat → Nat
  | [] => 0
  | b :: rest => b % 256 + 256 * natLE rest

/-- Reinterpret a `w`-bit unsigned value as two's-complement signed (the
Go `intXX(uintXX-value)` casts on the decode side). -/
def toSigned (w n : Nat) : Int :=
  if n < 2 ^ (w - 1) then (n : Int) else (n : Int) - 2 ^ w

/-- `bytes.IndexByte(data, 0)`: index of the first 0x00 byte, if any. -/
def findZero : List Nat → Option Nat
  | [] => none
  | b :: rest => if b % 256 = 0 then some 0 else (findZero rest).map (· + 1)

/-- `readPropertyValue` (properties.go:340-447): read one value of the
given column type from the front of `data`.  `some (v, n)` returns the
value (Go `nil` is `none`) and the number of bytes consumed; `none` is a
Go runtime panic.

For Json with no terminator, Go consumes `len` on parse success and
`len+1` on failure; both reach past the end of the remaining input and
end the decode loop identically, so the model uses `nullIdx + 1`
uniformly.

The Binary branch mirrors Go's wrapping arithmetic: `length` is a
uint32, and both the bounds guard `len(data) < int(4+length)` and the
slice `data[4 : 4+length]` compute `4+length` in uint32, i.e.
`(4 + length) % 2^32`.  For `length ≥ 0xFFFFFFFC` that bound wraps to
0..3, the guard passes (at least 4 bytes are available), and the slice's
high bound falls below its low bound 4: a slice-bounds panic, modelled
as `none`. -/
def readPropertyValue (data : List Nat) (t : ColumnType) :
    Option (Option PropValue × Nat) :=
  match t with
  | .bool =>
    match data with
    | [] => some (none, 0)
    | b :: _ => some (some (.pvBool (decide (b % 256 ≠ 0))), 1)
  | .byte =>
    match data with
    | [] => some (none, 0)
    | b :: _ => some (some (.pvInt8 (toSigned 8 (b % 256))), 1)
  | .ubyte =>
    match data with
    | [] => some (none, 0)
    | b :: _ => some (some (.pvUInt8 (b % 256)), 1)
  | .short =>
    if data.length < 2 then some (none, 0)
    else some (some (.pvInt16 (toSigned 16 (natLE (data.take 2)))), 2)
  | .ushort =>
    if data.length < 2 then some (none, 0)
    else some (some (.pvUInt16 (natLE (data.take 2))), 2)
  | .int =>
    if data.length < 4 then some (none, 0)
    else some (some (.pvInt32 (toSigned 32 (natLE (data.take 4)))), 4)
  | .uint =>
    if data.length < 4 then some (none, 0)
    else some (some (.pvUInt32 (natLE (data.take 4))), 4)
  | .long =>
    if data.length < 8 then some (none, 0)
    else some (some (.pvInt64 (toSigned 64 (natLE (data.take 8)))), 8)
  | .ulong =>
    if data.length < 8 then some (none, 0)
    else some (some (.pvUInt64 (natLE (data.take 8))), 8)
  | .float =>
    if data.length < 4 then some (none, 0)
    else some (some (.pvFloat32 (natLE (data.take 4))), 4)
  | .double =>
    if data.length < 8 then some (none, 0)
    else some (some (.pvFloat64 (natLE (data.take 8))), 8)
  | .string | .dateTime =>
    match findZero data with
    | none => some (some (.pvString (data.map (· % 256))), data.length)
    | some i => some (some (.pvString ((data.take i).map (· % 256))), i + 1)
  | .json =>
    let i := (findZero data).getD data.length
    some (some (.pvJson ((data.take i).map (· % 256))), i + 1)
  | .binary =>
    if data.length < 4 then some (none, 0)
    else
      let len := natLE (data.take 4)
      let bound := (4 + len) % 2 ^ 32
      if data.length < bound then some (none, 0)
      else if bound < 4 then none
      else some (some (.pvBinary (((data.drop 4).take (bound - 4)).map (· % 256))), bound)

/-- One decoded record: the `geojson.Properties` map under construction,
as an association list with unique keys (`none` values are entries whose
Go value is `nil`). -/
abbrev DecRecord := List (String × Option PropValue)

/-- `props[colName] = value`: map insertion with last-write-wins
overwrite. -/
def insertProp (r : DecRecord) (k : String) (v : Option PropValue) : DecRecord :=
  if (alookup k r).isSome then r.map fun e => if e.1 = k then (k, v) else e
  else r ++ [(k, v)]

/-- The outcome of one iteration of the `decodeProperties` loop
(properties.go:301-333): the loop breaks (`stop`), the iteration aborts
the whole program with a Go runtime panic propagated from
`readPropertyValue` (`panic`), or an entry is inserted and the cursor
advances by `consumed` bytes (`next`). -/
inductive StepResult where
  | panic
  | stop
  | next (e : String × Option PropValue) (consumed : Nat)
deriving DecidableEq

/-- One iteration of the `decodeProperties` loop: read the 2-byte
little-endian column index, resolve the column, read the value.  `stop`
covers fewer than 2 bytes left, an out-of-range column index, and a
zero-byte value read on a non-Bool column. -/
def decodeStep (columns : List Column) (data : List Nat) : StepResult :=
  match data with
  | b0 :: b1 :: rest =>
    match columns[b0 % 256 + 256 * (b1 % 256)]? with
    | none => .stop
    | some col =>
      match readPropertyValue rest col.type with
      | none => .panic
      | some r =>
        if r.2 = 0 ∧ col.type ≠ ColumnType.bool then .stop
        else .next (col.name, r.1) (2 + r.2)
  | _ => .stop

/-- The `decodeProperties` loop, running at most `fuel` iterations;
`none` is a propagated Go panic. -/
def decodeLoop (columns : List Column) : Nat → List Nat → DecRecord → Option DecRecord
  | 0, _, acc => some acc
  | fuel + 1, data, acc =>
    match decodeStep columns data with
    | .panic => none
    | .stop => some acc
    | .next e c => decodeLoop columns fuel (data.drop c) (insertProp acc e.1 e.2)

/-- `decodeProperties` (properties.go:293-336).  The loop needs at most
`data.length` iterations (each continuing iteration consumes at least the
two index bytes); empty input yields the empty record, as does Go's `nil`
early return; `none` is a Go runtime panic. -/
def decodeProperties (data : List Nat) (columns : List Column) : Option DecRecord :=
  decodeLoop columns data.length data []

/-- The column names present in a decoded record. -/
def keysOf (r : DecRecord) : List String :=
  r.map Prod.fst

/-- `r₁` is a sub-record of `r₂`: every entry of `r₁` appears in `r₂`
with the same value. -/
def subRecord (r₁ r₂ : DecRecord) : Prop :=
  ∀ e ∈ r₁, alookup e.1 r₂ = some e.2

instance (r₁ r₂ : DecRecord) : Decidable (subRecord r₁ r₂) :=
  inferInstanceAs (Decidable (∀ e ∈ r₁, alookup e.1 r₂ = some e.2))

/-- C1 (code bug): the encoder ignores the column's declared type.  A Go
`int` value 2 written into a column declared Long is emitted in the
4-byte Int layout inferred from the value, not the declared 8-byte Long
layout; the declared type has no effect on the bytes at all; and the
repository's own decoder, which does dispatch on the declared type, then
fails to read the value back (the record is lost). -/
theorem c1_encode_ignores_declared_type :
    encodeProperties [("v", Value.vInt 2)] [⟨"v", "v", ColumnType.long, true⟩] [("v", 0)] =
        [0, 0, 2, 0, 0, 0] ∧
      declaredWidth ColumnType.long = some 8 ∧
      encodeProperties [("v", Value.vInt 2)] [⟨"v", "v", ColumnType.long, true⟩] [("v", 0)] =
        encodeProperties [("v", Value.vInt 2)] [⟨"v", "v", ColumnType.int, true⟩] [("v", 0)] ∧
      decodeProperties
          (encodeProperties [("v", Value.vInt 2)] [⟨"v", "v", ColumnType.long, true⟩]
            [("v", 0)])
          [⟨"v", "v", ColumnType.long, true⟩] = some [] := by
  refine ⟨by decide, rfl, by decide, by decide⟩

/-- C10: a properties buffer ending exactly after the 2-byte index of a
Bool column makes the decoder insert that column's name with a nil value
and then stop; for any non-Bool column a zero-byte value read breaks the
loop without inserting anything. -/
theorem c10_bool_nil_insert (columns : List Column) (b0 b1 : Nat) (col : Column)
    (h : columns[b0 % 256 + 256 * (b1 % 256)]? = some col) :
    (col.type = ColumnType.bool →
        decodeProperties [b0, b1] columns = some [(col.name, none)]) ∧
      (col.type ≠ ColumnType.bool →
        ∀ (rest : List Nat) (acc : DecRecord) (fuel : Nat) (v : Option PropValue),
          readPropertyValue rest col.type = some (v, 0) →
            decodeLoop columns (fuel + 1) (b0 :: b1 :: rest) acc = some acc) := by
  constructor
  · intro ht
    simp [decodeProperties, decodeLoop, decodeStep, h, ht, readPropertyValue, insertProp,
      alookup]
  · intro hne rest acc fuel v h0
    simp [decodeLoop, decodeStep, h, h0, hne]

theorem c10_bool_nil_insert_witness :
    decodeProperties [0, 0] [⟨"flag", "flag", ColumnType.bool, true⟩] =
        some [("flag", none)] ∧
      decodeLoop [⟨"n", "n", ColumnType.int, true⟩] 1 [0, 0] [] = some [] :=
  ⟨(c10_bool_nil_insert [⟨"flag", "flag", ColumnType.bool, true⟩] 0 0 _ rfl).1 rfl,
    (c10_bool_nil_insert [⟨"n", "n", ColumnType.int, true⟩] 0 0 _ rfl).2 (by decide) [] [] 0
      none rfl⟩

theorem natLE_lt (l : List Nat) : natLE l < 256 ^ l.length := by
  induction l with
  | nil => simp [natLE]
  | cons b rest ih =>
    simp only [natLE, List.length_cons, pow_succ]
    have hb : b % 256 < 256 := Nat.mod_lt _ (by omega)
    have h2 : 256 * (natLE rest + 1) ≤ 256 * 256 ^ rest.length := by
      apply Nat.mul_le_mul_left
      omega
    omega

theorem natLE_take4_lt (data : List Nat) : natLE (data.take 4) < 2 ^ 32 := by
  have h1 := natLE_lt (data.take 4)
  have h2 : (data.take 4).length ≤ 4 := by
    rw [List.length_take]
    omega
  have h3 : (256 : Nat) ^ (data.take 4).length ≤ 256 ^ 4 :=
    Nat.pow_le_pow_right (by omega) h2
  have h4 : (256 : Nat) ^ 4 = 2 ^ 32 := by norm_num
  omega

/-- The only panic path of `readPropertyValue`: the Binary branch with at
least 4 bytes available and a uint32 length field of 0xFFFFFFFC or more,
whose wrapped bound `4+length` falls below the slice's low bound. -/
theorem readPropertyValue_none_elim (data : List Nat) (t : ColumnType)
    (h : readPropertyValue data t = none) :
    t = ColumnType.binary ∧ 4 ≤ data.length ∧ 2 ^ 32 - 4 ≤ natLE (data.take 4) := by
  cases t with
  | bool => cases data <;> simp [readPropertyValue] at h
  | byte => cases data <;> simp [readPropertyValue] at h
  | ubyte => cases data <;> simp [readPropertyValue] at h
  | short =>
    simp only [readPropertyValue] at h
    split at h <;> simp at h
  | ushort =>
    simp only [readPropertyValue] at h
    split at h <;> simp at h
  | int =>
    simp only [readPropertyValue] at h
    split at h <;> simp at h
  | uint =>
    simp only [readPropertyValue] at h
    split at h <;> simp at h
  | long =>
    simp only [readPropertyValue] at h
    split at h <;> simp at h
  | ulong =>
    simp only [readPropertyValue] at h
    split at h <;> simp at h
  | float =>
    simp only [readPropertyValue] at h
    split at h <;> simp at h
  | double =>
    simp only [readPropertyValue] at h
    split at h <;> simp at h
  | string =>
    simp only [readPropertyValue] at h
    split at h <;> simp at h
  | dateTime =>
    simp only [readPropertyValue] at h
    split at h <;> simp at h
  | json => simp [readPropertyValue] at h
  | binary =>
    simp only [readPropertyValue] at h
    by_cases h4 : data.length < 4
    · rw [if_pos h4] at h
      exact absurd h (by simp)
    · by_cases hb : data.length < (4 + natLE (data.take 4)) % 2 ^ 32
      · rw [if_neg h4, if_pos hb] at h
        exact absurd h (by simp)
      · by_cases hw : (4 + natLE (data.take 4)) % 2 ^ 32 < 4
        · have hlt := natLE_take4_lt data
          refine ⟨rfl, by omega, ?_⟩
          by_contra hc
          push_neg at hc
          rw [Nat.mod_eq_of_lt (by omega)] at hw
          omega
        · rw [if_neg h4, if_neg hb, if_neg hw] at h
          exact absurd h (by simp)

theorem decodeStep_next_shape (columns : List Column) (data : List Nat)
    (e : String × Option PropValue) (c : Nat)
    (h : decodeStep columns data = StepResult.next e c) :
    2 ≤ data.length ∧ 2 ≤ c := by
  match data with
  | [] => simp [decodeStep] at h
  | [b] => simp [decodeStep] at h
  | b0 :: b1 :: rest =>
    refine ⟨by simp, ?_⟩
    simp only [decodeStep] at h
    split at h
    · exact absurd h (by simp)
    · rename_i col hcol
      split at h
      · exact absurd h (by simp)
      · rename_i r hr
        by_cases hz : r.2 = 0 ∧ col.type ≠ ColumnType.bool
        · rw [if_pos hz] at h
          exact absurd h (by simp)
        · rw [if_neg hz] at h
          injection h with h1 h2
          omega

theorem decodeLoop_fuel (columns : List Column) :
    ∀ (f : Nat) (data : List Nat) (acc : DecRecord), data.length ≤ f →
      decodeLoop columns f data acc = decodeLoop columns data.length data acc := by
  intro f
  induction f using Nat.strong_induction_on with
  | _ f ih =>
    intro data acc hlen
    match f with
    | 0 =>
      have : data.length = 0 := Nat.le_zero.mp hlen
      rw [this]
    | f + 1 =>
      cases hstep : decodeStep columns data with
      | panic =>
        have l1 : decodeLoop columns (f + 1) data acc = none := by simp [decodeLoop, hstep]
        cases hL : data.length with
        | zero =>
          have hnil : data = [] := List.length_eq_zero.mp hL
          rw [hnil] at hstep
          simp [decodeStep] at hstep
        | succ m => rw [l1]; simp [decodeLoop, hstep]
      | stop =>
        have l1 : decodeLoop columns (f + 1) data acc = some acc := by
          simp [decodeLoop, hstep]
        cases hL : data.length with
        | zero => rw [l1]; rfl
        | succ m => rw [l1]; simp [decodeLoop, hstep]
      | next e c =>
        obtain ⟨hd2, hc2⟩ := decodeStep_next_shape columns data e c hstep
        have hdl : (data.drop c).length = data.length - c := by simp
        have l1 : decodeLoop columns (f + 1) data acc =
            decodeLoop columns f (data.drop c) (insertProp acc e.1 e.2) := by
          simp [decodeLoop, hstep]
        obtain ⟨m, hm⟩ : ∃ m, data.length = m + 1 := ⟨data.length - 1, by omega⟩
        have l2 : decodeLoop columns data.length data acc =
            decodeLoop columns m (data.drop c) (insertProp acc e.1 e.2) := by
          rw [hm]
          simp [decodeLoop, hstep]
        rw [l1, l2,
          ih f (by omega) (data.drop c) (insertProp acc e.1 e.2) (by omega),
          ih m (by omega) (data.drop c) (insertProp acc e.1 e.2) (by omega)]

theorem decodeStep_stop_cases (columns : List Column) (data : List Nat)
    (h : decodeStep columns data = StepResult.stop) :
    data.length < 2 ∨
      ∃ b0 b1 rest, data = b0 :: b1 :: rest ∧
        (columns[b0 % 256 + 256 * (b1 % 256)]? = none ∨
          ∃ col v, columns[b0 % 256 + 256 * (b1 % 256)]? = some col ∧
            readPropertyValue rest col.type = some (v, 0) ∧
            col.type ≠ ColumnType.bool) := by
  match data with
  | [] => left; simp
  | [b] => left; simp
  | b0 :: b1 :: rest =>
    right
    refine ⟨b0, b1, rest, rfl, ?_⟩
    simp only [decodeStep] at h
    split at h
    · rename_i heq
      exact Or.inl heq
    · rename_i col hcol
      right
      split at h
      · exact absurd h (by simp)
      · rename_i r hr
        obtain ⟨v, n⟩ := r
        by_cases hz : n = 0 ∧ col.type ≠ ColumnType.bool
        · refine ⟨col, v, hcol, ?_, hz.2⟩
          rw [hr, hz.1]
        · rw [if_neg (by simpa using hz)] at h
          exact absurd h (by simp)

/-- The decode loop panics exactly when it reads a Binary-typed column
whose uint32 length field wraps the `4+length` bound below 4. -/
theorem decodeStep_panic_cases (columns : List Column) (data : List Nat)
    (h : decodeStep columns data = StepResult.panic) :
    ∃ b0 b1 rest col, data = b0 :: b1 :: rest ∧
      columns[b0 % 256 + 256 * (b1 % 256)]? = some col ∧
      col.type = ColumnType.binary ∧ 4 ≤ rest.length ∧
      2 ^ 32 - 4 ≤ natLE (rest.take 4) := by
  match data with
  | [] => simp [decodeStep] at h
  | [b] => simp [decodeStep] at h
  | b0 :: b1 :: rest =>
    simp only [decodeStep] at h
    split at h
    · exact absurd h (by simp)
    · rename_i col hcol
      split at h
      · rename_i hr
        obtain ⟨hbin, h4, hw⟩ := readPropertyValue_none_elim rest col.type hr
        exact ⟨b0, b1, rest, col, rfl, hcol, hbin, h4, hw⟩
      · rename_i r hr
        split at h <;> exact absurd h (by simp)

/-- C9 (code bug): the decoder does not always terminate cleanly.  On a
buffer whose 2-byte index resolves to a Binary-typed column and whose
length field is 0xFFFFFFFC, Go's wrapped `4+length` bound makes
`data[4 : 4+length]` panic — the iteration neither advances the cursor
nor stops at a truncation condition (first conjunct evaluates the
decoder at that input).  Everywhere else the claim holds: the loop's
result is fixed by any fuel at least the input length, every continuing
iteration consumes at least the two index bytes and strictly shrinks the
input, a clean stop happens only at the three truncation conditions, and
a panic happens only at the Binary uint32 wrap. -/
theorem c9_decode_binary_wrap_panic :
    decodeProperties [0, 0, 252, 255, 255, 255] [⟨"b", "b", ColumnType.binary, true⟩] =
        none ∧
      (∀ (columns : List Column) (f g : Nat) (data : List Nat) (acc : DecRecord),
        data.length ≤ f → data.length ≤ g →
          decodeLoop columns f data acc = decodeLoop columns g data acc) ∧
      (∀ (columns : List Column) (data : List Nat) (e : String × Option PropValue) (c : Nat),
        decodeStep columns data = StepResult.next e c →
          2 ≤ c ∧ (data.drop c).length < data.length) ∧
      (∀ (columns : List Column) (data : List Nat),
        decodeStep columns data = StepResult.stop →
          data.length < 2 ∨
            ∃ b0 b1 rest, data = b0 :: b1 :: rest ∧
              (columns[b0 % 256 + 256 * (b1 % 256)]? = none ∨
                ∃ col v, columns[b0 % 256 + 256 * (b1 % 256)]? = some col ∧
                  readPropertyValue rest col.type = some (v, 0) ∧
                  col.type ≠ ColumnType.bool)) ∧
      (∀ (columns : List Column) (data : List Nat),
        decodeStep columns data = StepResult.panic →
          ∃ b0 b1 rest col, data = b0 :: b1 :: rest ∧
            columns[b0 % 256 + 256 * (b1 % 256)]? = some col ∧
            col.type = ColumnType.binary ∧ 4 ≤ rest.length ∧
            2 ^ 32 - 4 ≤ natLE (rest.take 4)) := by
  refine ⟨by decide, ?_, ?_, decodeStep_stop_cases, decodeStep_panic_cases⟩
  · intro columns f g data acc hf hg
    rw [decodeLoop_fuel columns f data acc hf, decodeLoop_fuel columns g data acc hg]
  · intro columns data e c h
    obtain ⟨hd2, hc2⟩ := decodeStep_next_shape columns data e c h
    refine ⟨hc2, ?_⟩
    simp only [List.length_drop]
    omega

theorem c9_decode_binary_wrap_panic_witness :
    decodeLoop [] 5 [1, 2, 3] [] = decodeLoop [] 9 [1, 2, 3] [] ∧
      (2 ≤ 3 ∧ (([0, 0, 1] : List Nat).drop 3).length < ([0, 0, 1] : List Nat).length) :=
  ⟨c9_decode_binary_wrap_panic.2.1 [] 5 9 [1, 2, 3] [] (by decide) (by decide),
    c9_decode_binary_wrap_panic.2.2.1 [⟨"flag", "flag", ColumnType.bool, true⟩] [0, 0, 1]
      ("flag", some (PropValue.pvBool true)) 3 (by decide)⟩

/-! ## Truncation behaviour of `readPropertyValue` (for C2) -/

theorem findZero_take_some (l : List Nat) :
    ∀ (m i : Nat), findZero (l.take m) = some i → findZero l = some i := by
  induction l with
  | nil => intro m i h; simp [findZero] at h
  | cons b tl ih =>
    intro m i h
    cases m with
    | zero => simp [findZero] at h
    | succ m' =>
      simp only [List.take_succ_cons, findZero] at h ⊢
      by_cases hb : b % 256 = 0
      · rwa [if_pos hb] at h ⊢
      · rw [if_neg hb] at h ⊢
        cases hfz : findZero (tl.take m') with
        | none => rw [hfz] at h; simp at h
        | some j =>
          rw [hfz] at h
          rw [ih m' j hfz]
          exact h

theorem readPropertyValue_bool_zero (data : List Nat) (v : Option PropValue)
    (h : readPropertyValue data ColumnType.bool = some (v, 0)) : data = [] := by
  cases data with
  | nil => rfl
  | cons b tl => simp [readPropertyValue] at h

/-- A read that consumes a nonzero number of bytes from a prefix of the
input also succeeds, consuming a nonzero number of bytes, on the full
input. -/
theorem readPropertyValue_take_nonzero (t : ColumnType) (rest : List Nat) (m : Nat)
    (rt : Option PropValue × Nat)
    (hsome : readPropertyValue (rest.take m) t = some rt) (hnz : rt.2 ≠ 0) :
    ∃ rf, readPropertyValue rest t = some rf ∧ rf.2 ≠ 0 := by
  cases t with
  | bool =>
    cases rest with
    | nil =>
      rw [List.take_nil] at hsome
      simp only [readPropertyValue] at hsome
      injection hsome with he
      subst he
      simp at hnz
    | cons b tl => exact ⟨_, rfl, by simp⟩
  | byte =>
    cases rest with
    | nil =>
      rw [List.take_nil] at hsome
      simp only [readPropertyValue] at hsome
      injection hsome with he
      subst he
      simp at hnz
    | cons b tl => exact ⟨_, rfl, by simp⟩
  | ubyte =>
    cases rest with
    | nil =>
      rw [List.take_nil] at hsome
      simp only [readPropertyValue] at hsome
      injection hsome with he
      subst he
      simp at hnz
    | cons b tl => exact ⟨_, rfl, by simp⟩
  | short =>
    simp only [readPropertyValue] at hsome ⊢
    by_cases htk : (rest.take m).length < 2
    · rw [if_pos htk] at hsome
      injection hsome with he
      subst he
      simp at hnz
    · have hr : ¬rest.length < 2 := by rw [List.length_take] at htk; omega
      rw [if_neg hr]
      exact ⟨_, rfl, by simp⟩
  | ushort =>
    simp only [readPropertyValue] at hsome ⊢
    by_cases htk : (rest.take m).length < 2
    · rw [if_pos htk] at hsome
      injection hsome with he
      subst he
      simp at hnz
    · have hr : ¬rest.length < 2 := by rw [List.length_take] at htk; omega
      rw [if_neg hr]
      exact ⟨_, rfl, by simp⟩
  | int =>
    simp only [readPropertyValue] at hsome ⊢
    by_cases htk : (rest.take m).length < 4
    · rw [if_pos htk] at hsome
      injection hsome with he
      subst he
      simp at hnz
    · have hr : ¬rest.length < 4 := by rw [List.length_take] at htk; omega
      rw [if_neg hr]
      exact ⟨_, rfl, by simp⟩
  | uint =>
    simp only [readPropertyValue] at hsome ⊢
    by_cases htk : (rest.take m).length < 4
    · rw [if_pos htk] at hsome
      injection hsome with he
      subst he
      simp at hnz
    · have hr : ¬rest.length < 4 := by rw [List.length_take] at htk; omega
      rw [if_neg hr]
      exact ⟨_, rfl, by simp⟩
  | long =>
    simp only [readPropertyValue] at hsome ⊢
    by_cases htk : (rest.take m).length < 8
    · rw [if_pos htk] at hsome
      injection hsome with he
      subst he
      simp at hnz
    · have hr : ¬rest.length < 8 := by rw [List.length_take] at htk; omega
      rw [if_neg hr]
      exact ⟨_, rfl, by simp⟩
  | ulong =>
    simp only [readPropertyValue] at hsome ⊢
    by_cases htk : (rest.take m).length < 8
    · rw [if_pos htk] at hsome
      injection hsome with he
      subst he
      simp at hnz
    · have hr : ¬rest.length < 8 := by rw [List.length_take] at htk; omega
      rw [if_neg hr]
      exact ⟨_, rfl, by simp⟩
  | float =>
    simp only [readPropertyValue] at hsome ⊢
    by_cases htk : (rest.take m).length < 4
    · rw [if_pos htk] at hsome
      injection hsome with he
      subst he
      simp at hnz
    · have hr : ¬rest.length < 4 := by rw [List.length_take] at htk; omega
      rw [if_neg hr]
      exact ⟨_, rfl, by simp⟩
  | double =>
    simp only [readPropertyValue] at hsome ⊢
    by_cases htk : (rest.take m).length < 8
    · rw [if_pos htk] at hsome
      injection hsome with he
      subst he
      simp at hnz
    · have hr : ¬rest.length < 8 := by rw [List.length_take] at htk; omega
      rw [if_neg hr]
      exact ⟨_, rfl, by simp⟩
  | string =>
    simp only [readPropertyValue] at hsome ⊢
    cases hfz : findZero (rest.take m) with
    | none =>
      rw [hfz] at hsome
      injection hsome with he
      subst he
      cases hf : findZero rest with
      | none =>
        refine ⟨_, rfl, ?_⟩
        intro hc
        have hnil : rest = [] := List.length_eq_zero.mp hc
        subst hnil
        simp at hnz
      | some i => exact ⟨_, rfl, by simp⟩
    | some i =>
      rw [findZero_take_some rest m i hfz]
      exact ⟨_, rfl, by simp⟩
  | dateTime =>
    simp only [readPropertyValue] at hsome ⊢
    cases hfz : findZero (rest.take m) with
    | none =>
      rw [hfz] at hsome
      injection hsome with he
      subst he
      cases hf : findZero rest with
      | none =>
        refine ⟨_, rfl, ?_⟩
        intro hc
        have hnil : rest = [] := List.length_eq_zero.mp hc
        subst hnil
        simp at hnz
      | some i => exact ⟨_, rfl, by simp⟩
    | some i =>
      rw [findZero_take_some rest m i hfz]
      exact ⟨_, rfl, by simp⟩
  | json => exact ⟨_, rfl, by simp [readPropertyValue]⟩
  | binary =>
    simp only [readPropertyValue] at hsome ⊢
    by_cases h4 : (rest.take m).length < 4
    · rw [if_pos h4] at hsome
      injection hsome with he
      subst he
      simp at hnz
    · have hm : 4 ≤ m ∧ 4 ≤ rest.length := by rw [List.length_take] at h4; omega
      have htake4 : (rest.take m).take 4 = rest.take 4 := by
        rw [List.take_take]
        congr 1
        omega
      rw [if_neg h4, htake4] at hsome
      by_cases h2 : (rest.take m).length < (4 + natLE (rest.take 4)) % 2 ^ 32
      · rw [if_pos h2] at hsome
        injection hsome with he
        subst he
        simp at hnz
      · rw [if_neg h2] at hsome
        by_cases hw : (4 + natLE (rest.take 4)) % 2 ^ 32 < 4
        · rw [if_pos hw] at hsome
          exact absurd hsome (by simp)
        · have hr4 : ¬rest.length < 4 := by omega
          have hr2 : ¬rest.length < (4 + natLE (rest.take 4)) % 2 ^ 32 := by
            have hlen : (rest.take m).length ≤ rest.length := by
              rw [List.length_take]; omega
            omega
          rw [if_neg hr4, if_neg hr2, if_neg hw]
          refine ⟨_, rfl, ?_⟩
          show (4 + natLE (rest.take 4)) % 2 ^ 32 ≠ 0
          omega

/-- Reading from a prefix of the input either consumes zero bytes, or
succeeds on the full input too, consuming exactly as many bytes, or
consumes the whole prefix (and possibly claims more). -/
theorem readPropertyValue_take_cases (t : ColumnType) (rest : List Nat) (m : Nat)
    (rt : Option PropValue × Nat)
    (hsome : readPropertyValue (rest.take m) t = some rt) :
    rt.2 = 0 ∨
      (∃ rf, readPropertyValue rest t = some rf ∧ rf.2 = rt.2) ∨
      (rest.take m).length ≤ rt.2 := by
  cases t with
  | bool =>
    cases htk : rest.take m with
    | nil =>
      rw [htk] at hsome
      simp only [readPropertyValue] at hsome
      injection hsome with he
      subst he
      left; rfl
    | cons b tl =>
      right; left
      obtain ⟨b', tl', hrest⟩ : ∃ b' tl', rest = b' :: tl' := by
        cases rest with
        | nil => simp at htk
        | cons x xs => exact ⟨x, xs, rfl⟩
      rw [htk] at hsome
      simp only [readPropertyValue] at hsome
      injection hsome with he
      subst he
      rw [hrest]
      exact ⟨_, rfl, rfl⟩
  | byte =>
    cases htk : rest.take m with
    | nil =>
      rw [htk] at hsome
      simp only [readPropertyValue] at hsome
      injection hsome with he
      subst he
      left; rfl
    | cons b tl =>
      right; left
      obtain ⟨b', tl', hrest⟩ : ∃ b' tl', rest = b' :: tl' := by
        cases rest with
        | nil => simp at htk
        | cons x xs => exact ⟨x, xs, rfl⟩
      rw [htk] at hsome
      simp only [readPropertyValue] at hsome
      injection hsome with he
      subst he
      rw [hrest]
      exact ⟨_, rfl, rfl⟩
  | ubyte =>
    cases htk : rest.take m with
    | nil =>
      rw [htk] at hsome
      simp only [readPropertyValue] at hsome
      injection hsome with he
      subst he
      left; rfl
    | cons b tl =>
      right; left
      obtain ⟨b', tl', hrest⟩ : ∃ b' tl', rest = b' :: tl' := by
        cases rest with
        | nil => simp at htk
        | cons x xs => exact ⟨x, xs, rfl⟩
      rw [htk] at hsome
      simp only [readPropertyValue] at hsome
      injection hsome with he
      subst he
      rw [hrest]
      exact ⟨_, rfl, rfl⟩
  | short =>
    simp only [readPropertyValue] at hsome ⊢
    by_cases hl : (rest.take m).length < 2
    · rw [if_pos hl] at hsome
      injection hsome with he
      subst he
      left; rfl
    · right; left
      have hr : ¬rest.length < 2 := by rw [List.length_take] at hl; omega
      rw [if_neg hl] at hsome
      injection hsome with he
      subst he
      rw [if_neg hr]
      exact ⟨_, rfl, rfl⟩
  | ushort =>
    simp only [readPropertyValue] at hsome ⊢
    by_cases hl : (rest.take m).length < 2
    · rw [if_pos hl] at hsome
      injection hsome with he
      subst he
      left; rfl
    · right; left
      have hr : ¬rest.length < 2 := by rw [List.length_take] at hl; omega
      rw [if_neg hl] at hsome
      injection hsome with he
      subst he
      rw [if_neg hr]
      exact ⟨_, rfl, rfl⟩
  | int =>
    simp only [readPropertyValue] at hsome ⊢
    by_cases hl : (rest.take m).length < 4
    · rw [if_pos hl] at hsome
      injection hsome with he
      subst he
      left; rfl
    · right; left
      have hr : ¬rest.length < 4 := by rw [List.length_take] at hl; omega
      rw [if_neg hl] at hsome
      injection hsome with he
      subst he
      rw [if_neg hr]
      exact ⟨_, rfl, rfl⟩
  | uint =>
    simp only [readPropertyValue] at hsome ⊢
    by_cases hl : (rest.take m).length < 4
    · rw [if_pos hl] at hsome
      injection hsome with he
      subst he
      left; rfl
    · right; left
      have hr : ¬rest.length < 4 := by rw [List.length_take] at hl; omega
      rw [if_neg hl] at hsome
      injection hsome with he
      subst he
      rw [if_neg hr]
      exact ⟨_, rfl, rfl⟩
  | long =>
    simp only [readPropertyValue] at hsome ⊢
    by_cases hl : (rest.take m).length < 8
    · rw [if_pos hl] at hsome
      injection hsome with he
      subst he
      left; rfl
    · right; left
      have hr : ¬rest.length < 8 := by rw [List.length_take] at hl; omega
      rw [if_neg hl] at hsome
      injection hsome with he
      subst he
      rw [if_neg hr]
      exact ⟨_, rfl, rfl⟩
  | ulong =>
    simp only [readPropertyValue] at hsome ⊢
    by_cases hl : (rest.take m).length < 8
    · rw [if_pos hl] at hsome
      injection hsome with he
      subst he
      left; rfl
    · right; left
      have hr : ¬rest.length < 8 := by rw [List.length_take] at hl; omega
      rw [if_neg hl] at hsome
      injection hsome with he
      subst he
      rw [if_neg hr]
      exact ⟨_, rfl, rfl⟩
  | float =>
    simp only [readPropertyValue] at hsome ⊢
    by_cases hl : (rest.take m).length < 4
    · rw [if_pos hl] at hsome
      injection hsome with he
      subst he
      left; rfl
    · right; left
      have hr : ¬rest.length < 4 := by rw [List.length_take] at hl; omega
      rw [if_neg hl] at hsome
      injection hsome with he
      subst he
      rw [if_neg hr]
      exact ⟨_, rfl, rfl⟩
  | double =>
    simp only [readPropertyValue] at hsome ⊢
    by_cases hl : (rest.take m).length < 8
    · rw [if_pos hl] at hsome
      injection hsome with he
      subst he
      left; rfl
    · right; left
      have hr : ¬rest.length < 8 := by rw [List.length_take] at hl; omega
      rw [if_neg hl] at hsome
      injection hsome with he
      subst he
      rw [if_neg hr]
      exact ⟨_, rfl, rfl⟩
  | string =>
    simp only [readPropertyValue] at hsome ⊢
    cases hfz : findZero (rest.take m) with
    | none =>
      rw [hfz] at hsome
      injection hsome with he
      subst he
      right; right
      simp
    | some i =>
      rw [hfz] at hsome
      injection hsome with he
      subst he
      right; left
      rw [findZero_take_some rest m i hfz]
      exact ⟨_, rfl, rfl⟩
  | dateTime =>
    simp only [readPropertyValue] at hsome ⊢
    cases hfz : findZero (rest.take m) with
    | none =>
      rw [hfz] at hsome
      injection hsome with he
      subst he
      right; right
      simp
    | some i =>
      rw [hfz] at hsome
      injection hsome with he
      subst he
      right; left
      rw [findZero_take_some rest m i hfz]
      exact ⟨_, rfl, rfl⟩
  | json =>
    simp only [readPropertyValue] at hsome ⊢
    cases hfz : findZero (rest.take m) with
    | none =>
      rw [hfz] at hsome
      injection hsome with he
      subst he
      right; right
      simp
    | some i =>
      rw [hfz] at hsome
      injection hsome with he
      subst he
      right; left
      rw [findZero_take_some rest m i hfz]
      exact ⟨_, rfl, rfl⟩
  | binary =>
    simp only [readPropertyValue] at hsome ⊢
    by_cases hl4 : (rest.take m).length < 4
    · rw [if_pos hl4] at hsome
      injection hsome with he
      subst he
      left; rfl
    · have hm : 4 ≤ m ∧ 4 ≤ rest.length := by rw [List.length_take] at hl4; omega
      have htake4 : (rest.take m).take 4 = rest.take 4 := by
        rw [List.take_take]
        congr 1
        omega
      rw [if_neg hl4, htake4] at hsome
      by_cases hl2 : (rest.take m).length < (4 + natLE (rest.take 4)) % 2 ^ 32
      · rw [if_pos hl2] at hsome
        injection hsome with he
        subst he
        left; rfl
      · rw [if_neg hl2] at hsome
        by_cases hw : (4 + natLE (rest.take 4)) % 2 ^ 32 < 4
        · rw [if_pos hw] at hsome
          exact absurd hsome (by simp)
        · rw [if_neg hw] at hsome
          injection hsome with he
          subst he
          right; left
          have hr4 : ¬rest.length < 4 := by omega
          have hr2 : ¬rest.length < (4 + natLE (rest.take 4)) % 2 ^ 32 := by
            have hlen : (rest.take m).length ≤ rest.length := by
              rw [List.length_take]; omega
            omega
          rw [if_neg hr4, if_neg hr2, if_neg hw]
          exact ⟨_, rfl, rfl⟩

theorem decodeLoop_nil (columns : List Column) (f : Nat) (acc : DecRecord) :
    decodeLoop columns f [] acc = some acc := by
  cases f with
  | zero => rfl
  | succ f => simp [decodeLoop, decodeStep]

theorem drop_two_cons (a b : Nat) (l : List Nat) (k : Nat) :
    (a :: b :: l).drop (2 + k) = l.drop k := by
  rw [Nat.add_comm 2 k]
  rfl

theorem keysOf_insertProp (acc : DecRecord) (k : String) (v : Option PropValue) (x : String) :
    x ∈ keysOf (insertProp acc k v) ↔ x ∈ keysOf acc ∨ x = k := by
  unfold insertProp keysOf
  by_cases hs : (alookup k acc).isSome
  · rw [if_pos hs]
    have hmap : (acc.map fun e => if e.1 = k then (k, v) else e).map Prod.fst =
        acc.map Prod.fst := by
      rw [List.map_map]
      apply List.map_congr_left
      intro e _
      by_cases h1 : e.1 = k
      · simp [h1]
      · simp [h1]
    rw [hmap]
    have hk : k ∈ acc.map Prod.fst := (mem_keys_iff_isSome acc k).mpr hs
    constructor
    · exact Or.inl
    · rintro (h | h)
      · exact h
      · subst h; exact hk
  · rw [if_neg hs]
    simp [List.mem_append]

/-- A key present in the accumulator is present in any non-panicking run
of the decode loop from that accumulator. -/
theorem keysOf_decodeLoop_mono (columns : List Column) :
    ∀ (f : Nat) (data : List Nat) (acc r : DecRecord),
      decodeLoop columns f data acc = some r →
      ∀ x ∈ keysOf acc, x ∈ keysOf r := by
  intro f
  induction f with
  | zero =>
    intro data acc r hr x hx
    simp only [decodeLoop] at hr
    injection hr with he
    subst he
    exact hx
  | succ f ih =>
    intro data acc r hr x hx
    cases hstep : decodeStep columns data with
    | panic =>
      simp only [decodeLoop, hstep] at hr
      exact absurd hr (by simp)
    | stop =>
      simp only [decodeLoop, hstep] at hr
      injection hr with he
      subst he
      exact hx
    | next e c =>
      simp only [decodeLoop, hstep] at hr
      exact ih _ _ r hr x ((keysOf_insertProp acc e.1 e.2 x).mpr (Or.inl hx))

theorem keysOf_insertProp_subset {acc₁ acc₂ : DecRecord} (k : String)
    (v₁ v₂ : Option PropValue) (h : ∀ x ∈ keysOf acc₁, x ∈ keysOf acc₂) :
    ∀ x ∈ keysOf (insertProp acc₁ k v₁), x ∈ keysOf (insertProp acc₂ k v₂) := by
  intro x hx
  rcases (keysOf_insertProp acc₁ k v₁ x).mp hx with h1 | h1
  · exact (keysOf_insertProp acc₂ k v₂ x).mpr (Or.inl (h x h1))
  · exact (keysOf_insertProp acc₂ k v₂ x).mpr (Or.inr h1)

theorem take_cons_cons {data : List Nat} {n : Nat} {b0 b1 : Nat} {rest_t : List Nat}
    (h : data.take n = b0 :: b1 :: rest_t) :
    ∃ rest, data = b0 :: b1 :: rest ∧ rest_t = rest.take (n - 2) ∧ 2 ≤ n := by
  cases data with
  | nil => rw [List.take_nil] at h; exact absurd h (by simp)
  | cons d0 data' =>
    cases n with
    | zero => simp at h
    | succ nn =>
      rw [List.take_succ_cons] at h
      injection h with h0 h1
      subst h0
      cases data' with
      | nil => rw [List.take_nil] at h1; exact absurd h1 (by simp)
      | cons d1 data'' =>
        cases nn with
        | zero => simp at h1
        | succ n'' =>
          rw [List.take_succ_cons] at h1
          injection h1 with h2 h3
          subst h2
          refine ⟨data'', rfl, ?_, by omega⟩
          have hn : n'' + 1 + 1 - 2 = n'' := by omega
          rw [hn, ← h3]

theorem decodeStep_next_elim (columns : List Column) (b0 b1 : Nat) (rest : List Nat)
    (e : String × Option PropValue) (c : Nat)
    (h : decodeStep columns (b0 :: b1 :: rest) = StepResult.next e c) :
    ∃ col rv, columns[b0 % 256 + 256 * (b1 % 256)]? = some col ∧
      readPropertyValue rest col.type = some rv ∧
      e = (col.name, rv.1) ∧ c = 2 + rv.2 ∧
      ¬(rv.2 = 0 ∧ col.type ≠ ColumnType.bool) := by
  simp only [decodeStep] at h
  split at h
  · exact absurd h (by simp)
  · rename_i col hcol
    split at h
    · exact absurd h (by simp)
    · rename_i rv hrv
      by_cases hz : rv.2 = 0 ∧ col.type ≠ ColumnType.bool
      · rw [if_pos hz] at h
        exact absurd h (by simp)
      · rw [if_neg hz] at h
        injection h with h1 h2
        exact ⟨col, rv, hcol, hrv, h1.symm, h2.symm, hz⟩

/-- When the decode loop finishes without panicking on both a prefix of
the input and the full input, the prefix run inserts only column names
that the full run also inserts. -/
theorem decodeLoop_keys_take (columns : List Column) :
    ∀ (f : Nat) (data : List Nat) (n : Nat) (acc₁ acc₂ r₁ r₂ : DecRecord),
      data.length ≤ f → (∀ x ∈ keysOf acc₁, x ∈ keysOf acc₂) →
      decodeLoop columns f (data.take n) acc₁ = some r₁ →
      decodeLoop columns f data acc₂ = some r₂ →
      ∀ x ∈ keysOf r₁, x ∈ keysOf r₂ := by
  intro f
  induction f with
  | zero =>
    intro data n acc₁ acc₂ r₁ r₂ _ hsub h₁ h₂ x hx
    simp only [decodeLoop] at h₁ h₂
    injection h₁ with he₁
    injection h₂ with he₂
    subst he₁
    subst he₂
    exact hsub x hx
  | succ f ih =>
    intro data n acc₁ acc₂ r₁ r₂ hlen hsub h₁ h₂
    cases hstep : decodeStep columns (data.take n) with
    | panic =>
      simp only [decodeLoop, hstep] at h₁
      exact absurd h₁ (by simp)
    | stop =>
      simp only [decodeLoop, hstep] at h₁
      injection h₁ with he₁
      subst he₁
      intro x hx
      exact keysOf_decodeLoop_mono columns (f + 1) data acc₂ r₂ h₂ x (hsub x hx)
    | next e c =>
      have hshape := decodeStep_next_shape columns (data.take n) e c hstep
      obtain ⟨b0, b1, rest_t, htk⟩ : ∃ b0 b1 rest_t, data.take n = b0 :: b1 :: rest_t := by
        cases hdt : data.take n with
        | nil => rw [hdt] at hshape; simp at hshape
        | cons a tl =>
          cases tl with
          | nil => rw [hdt] at hshape; simp at hshape
          | cons b tl' => exact ⟨a, b, tl', rfl⟩
      obtain ⟨rest, hdata, hrest_t, hn2⟩ := take_cons_cons htk
      subst hrest_t
      rw [htk] at hstep
      obtain ⟨col, rv, hcol, hrv, he, hc, hnz⟩ :=
        decodeStep_next_elim columns b0 b1 _ e c hstep
      subst he
      subst hc
      rw [htk] at h₁
      simp only [decodeLoop, hstep] at h₁
      rw [drop_two_cons] at h₁
      have hrestlen : rest.length + 2 ≤ f + 1 := by
        rw [hdata] at hlen
        simpa using hlen
      rcases readPropertyValue_take_cases col.type rest (n - 2) rv hrv with hz | hmid | hbig
      · have hb : col.type = ColumnType.bool := by
          by_contra hbty
          exact hnz ⟨hz, hbty⟩
        have hrv0 : readPropertyValue (rest.take (n - 2)) ColumnType.bool =
            some (rv.1, 0) := by
          rw [← hb, ← hz]
          exact hrv
        have hemp : rest.take (n - 2) = [] :=
          readPropertyValue_bool_zero (rest.take (n - 2)) rv.1 hrv0
        rw [hemp, List.drop_nil, decodeLoop_nil] at h₁
        injection h₁ with h₁e
        obtain ⟨rf, hrf⟩ : ∃ rf, readPropertyValue rest col.type = some rf := by
          rw [hb]
          cases rest with
          | nil => exact ⟨_, rfl⟩
          | cons b tl => exact ⟨_, rfl⟩
        have hfstep : decodeStep columns data =
            StepResult.next (col.name, rf.1) (2 + rf.2) := by
          rw [hdata]
          simp only [decodeStep, hcol, hrf]
          rw [if_neg (by simp [hb])]
        simp only [decodeLoop, hfstep] at h₂
        intro x hx
        rw [← h₁e] at hx
        exact keysOf_decodeLoop_mono columns f _ _ r₂ h₂ x
          (keysOf_insertProp_subset col.name _ _ hsub x hx)
      · obtain ⟨rf, hrf, heq⟩ := hmid
        have hfstep : decodeStep columns data =
            StepResult.next (col.name, rf.1) (2 + rf.2) := by
          rw [hdata]
          simp only [decodeStep, hcol, hrf]
          rw [if_neg (by rintro ⟨h0, hbty⟩; exact hnz ⟨by rw [← heq]; exact h0, hbty⟩)]
        simp only [decodeLoop, hfstep] at h₂
        have hdrop2 : data.drop (2 + rf.2) = rest.drop rv.2 := by
          rw [hdata, heq]
          exact drop_two_cons b0 b1 rest rv.2
        rw [hdrop2] at h₂
        rw [List.drop_take] at h₁
        exact ih (rest.drop rv.2) (n - 2 - rv.2) _ _ r₁ r₂
          (by simp only [List.length_drop]; omega)
          (keysOf_insertProp_subset col.name _ _ hsub) h₁ h₂
      · have hend : (rest.take (n - 2)).drop rv.2 = [] :=
          List.drop_eq_nil_of_le hbig
        rw [hend, decodeLoop_nil] at h₁
        injection h₁ with h₁e
        obtain ⟨rf, hrf, hfstep⟩ : ∃ rf, readPropertyValue rest col.type = some rf ∧
            decodeStep columns data = StepResult.next (col.name, rf.1) (2 + rf.2) := by
          by_cases hz : rv.2 = 0
          · have hb : col.type = ColumnType.bool := by
              by_contra hbty
              exact hnz ⟨hz, hbty⟩
            obtain ⟨rf, hrf⟩ : ∃ rf, readPropertyValue rest col.type = some rf := by
              rw [hb]
              cases rest with
              | nil => exact ⟨_, rfl⟩
              | cons b tl => exact ⟨_, rfl⟩
            refine ⟨rf, hrf, ?_⟩
            rw [hdata]
            simp only [decodeStep, hcol, hrf]
            rw [if_neg (by simp [hb])]
          · obtain ⟨rf, hrf, hnzf⟩ :=
              readPropertyValue_take_nonzero col.type rest (n - 2) rv hrv hz
            refine ⟨rf, hrf, ?_⟩
            rw [hdata]
            simp only [decodeStep, hcol, hrf]
            rw [if_neg (by rintro ⟨h0, hbty⟩; exact hnzf h0)]
        simp only [decodeLoop, hfstep] at h₂
        intro x hx
        rw [← h₁e] at hx
        exact keysOf_decodeLoop_mono columns f _ _ r₂ h₂ x
          (keysOf_insertProp_subset col.name _ _ hsub x hx)

/-- C2 counterexample: a record with one String attribute "abc", encoded
against its schema, and the 4-byte prefix of the encoding.  The prefix
decodes without failing but yields a truncated value "ab" for the
column, which is not a sub-record of the full decode.  Moreover decoding
a prefix can fail outright: against a schema whose column 0 is
Binary-typed, the encoder emits [00 00 FC FF FF FF 00] for a record with
the 4-byte string "\xfc\xff\xff\xff", and its 6-byte prefix makes the
decoder's wrapped uint32 bound panic (model value `none`). -/
theorem c2_counterexample :
    encodeProperties [("a", Value.vString [97, 98, 99])]
        [⟨"a", "a", ColumnType.string, true⟩] [("a", 0)] = [0, 0, 97, 98, 99, 0] ∧
      decodeProperties ([0, 0, 97, 98, 99, 0].take 4)
          [⟨"a", "a", ColumnType.string, true⟩] =
        some [("a", some (PropValue.pvString [97, 98]))] ∧
      decodeProperties [0, 0, 97, 98, 99, 0] [⟨"a", "a", ColumnType.string, true⟩] =
        some [("a", some (PropValue.pvString [97, 98, 99]))] ∧
      ¬subRecord [("a", some (PropValue.pvString [97, 98]))]
          [("a", some (PropValue.pvString [97, 98, 99]))] ∧
      encodeProperties [("b", Value.vString [252, 255, 255, 255])]
          [⟨"b", "b", ColumnType.binary, true⟩] [("b", 0)] =
        [0, 0, 252, 255, 255, 255, 0] ∧
      decodeProperties ([0, 0, 252, 255, 255, 255, 0].take 6)
          [⟨"b", "b", ColumnType.binary, true⟩] = none := by
  refine ⟨by decide, by decide, by decide, by decide, by decide, by decide⟩

/-- C2 (amended): when decoding both a prefix of a byte sequence and the
full sequence succeeds without panicking, the prefix decode inserts only
column names that the full decode also inserts — its key set is a subset
of the full decode's key set.  The value at the truncation boundary may
be a truncated one, so the record itself need not be a sub-record; and
on a Binary-typed column the decode of a prefix (or of the full input)
can instead panic via the wrapped uint32 bound. -/
theorem c2_prefix_decode_keys_subset (columns : List Column) (data : List Nat) (n : Nat)
    (r_t r_f : DecRecord)
    (ht : decodeProperties (data.take n) columns = some r_t)
    (hf : decodeProperties data columns = some r_f) :
    ∀ x ∈ keysOf r_t, x ∈ keysOf r_f := by
  unfold decodeProperties at ht hf
  have h1 : decodeLoop columns data.length (data.take n) [] =
      decodeLoop columns (data.take n).length (data.take n) [] :=
    decodeLoop_fuel columns data.length (data.take n) []
      (by rw [List.length_take]; omega)
  rw [← h1] at ht
  exact decodeLoop_keys_take columns data.length data n [] [] r_t r_f le_rfl
    (fun _ h => h) ht hf

theorem c2_prefix_decode_keys_subset_witness :
    "a" ∈ keysOf [("a", some (PropValue.pvString [97, 98]))] :=
  c2_prefix_decode_keys_subset [⟨"a", "a", ColumnType.string, true⟩] [0, 0, 97, 98, 0] 4
    [("a", some (PropValue.pvString [97, 98]))] [("a", some (PropValue.pvString [97, 98]))]
    (by decide) (by decide) "a" (by decide)

/-! ## Geometry packer (geometry.go)

Coordinates are an arbitrary (inhabited) type `α`: the Go code only moves
`float64` values between buffers and never inspects them, so the packer
is parametric in the coordinate type; concrete instances use `Int`. -/

/-- The FlatGeobuf geometry-type tags handled by `geometry.go`
(`flattypes.GeometryType`); every other tag behaves like `unknown`
(`geometryFromFGB`'s default branch returns nil). -/
inductive GeometryType where
  | unknown
  | point
  | multiPoint
  | lineString
  | multiLineString
  | polygon
  | multiPolygon
  | geometryCollection
deriving DecidableEq

/-- An `orb.Geometry` value: points are pairs, lines/rings are point
lists, polygons are ring lists.  `bound` is `orb.Bound` (min/max corner
points). -/
inductive Geom (α : Type) where
  | point (p : α × α)
  | multiPoint (ps : List (α × α))
  | lineString (ps : List (α × α))
  | multiLineString (ls : List (List (α × α)))
  | polygon (rs : List (List (α × α)))
  | multiPolygon (ps : List (List (List (α × α))))
  | collection (gs : List (Geom α))
  | ring (r : List (α × α))
  | bound (mn mx : α × α)

/-- A packed FlatGeobuf geometry node (`writer.Geometry` on the write
side, `flattypes.Geometry` with its `Type/Xy/Ends/Parts` accessors on the
read side): type tag, flat coordinate buffer, ends array (uint32 values),
nested parts.  Unset Go fields read back as empty vectors. -/
inductive FGBGeom (α : Type) where
  | mk (ty : GeometryType) (xy : List α) (ends : List Nat) (parts : List (FGBGeom α))

section GeometryDefs

variable {α : Type}

def FGBGeom.ty : FGBGeom α → GeometryType
  | .mk t _ _ _ => t

def FGBGeom.xy : FGBGeom α → List α
  | .mk _ x _ _ => x

def FGBGeom.ends : FGBGeom α → List Nat
  | .mk _ _ e _ => e

def FGBGeom.parts : FGBGeom α → List (FGBGeom α)
  | .mk _ _ _ p => p

/-- The point-flattening loop shared by the MultiPoint case,
`lineStringToXY` and `ringToXY` (geometry.go:49-55, 156-170): append
`p[0], p[1]` for each point. -/
def flatXY (ps : List (α × α)) : List α :=
  ps.flatMap fun p => [p.1, p.2]

/-- `polygonToXYEnds` (geometry.go:193-212): concatenate all rings'
coordinates and record the running cumulative vertex count after each
ring, as a uint32 (`cumulative += uint32(len(ring))`). -/
def polygonToXYEnds (poly : List (List (α × α))) : List α × List Nat :=
  let st := poly.foldl
    (fun (st : List α × List Nat × Nat) r =>
      let cum := (st.2.2 + r.length) % 2 ^ 32
      (st.1 ++ flatXY r, st.2.1 ++ [cum], cum))
    ([], [], 0)
  (st.1, st.2.1)

/-- `multiLineStringToXYEnds` (geometry.go:172-191) — textually the same
loop as `polygonToXYEnds` in the source. -/
def multiLineStringToXYEnds (mls : List (List (α × α))) : List α × List Nat :=
  polygonToXYEnds mls

/-- `boundToPolygon` (geometry.go:214-224): the synthesized 5-point closed
rectangle ring. -/
def boundToPolygon (mn mx : α × α) : List (List (α × α)) :=
  [[mn, (mx.1, mn.2), mx, (mn.1, mx.2), mn]]

/-- The guarded ring/line reconstruction loop of `polygonFromXYEnds` and
`multiLineStringFromXYEnds` (geometry.go:278-291, 317-330):
`for j := start; j < stop; j++`, appending point `(Xy(2j), Xy(2j+1))`
when `2j+1 < xyLength`. -/
def segLoop (xy : List α) : Nat → Nat → List (α × α)
  | _, 0 => []
  | j, k + 1 =>
    match xy[2 * j]?, xy[2 * j + 1]? with
    | some x, some y => (x, y) :: segLoop xy (j + 1) k
    | _, _ => segLoop xy (j + 1) k

def segmentFromXY (xy : List α) (start stop : Nat) : List (α × α) :=
  segLoop xy start (stop - start)

/-- The unguarded `for i := 0; i < xyLen; i += 2` pair-collection loop of
`multiPointFromXY`, `lineStringFromXY` and the single-ring branch of
`polygonFromXYEnds`.  For the even xy lengths the packer produces this is
every pair; an odd final half-pair would be an unchecked flatbuffers read
past the vector in Go, modelled as skipped. -/
def pointsFromXY (xy : List α) : List (α × α) :=
  segmentFromXY xy 0 ((xy.length + 1) / 2)

/-- `pointFromXY` (geometry.go:228-233); fewer than 2 coordinates gives
the zero `orb.Point{}`. -/
def pointFromXY [Inhabited α] (xy : List α) : α × α :=
  match xy with
  | x :: y :: _ => (x, y)
  | _ => (default, default)

/-- `multiPointFromXY` (geometry.go:235-247). -/
def multiPointFromXY (xy : List α) : List (α × α) :=
  if xy.length < 2 then [] else pointsFromXY xy

/-- `lineStringFromXY` (geometry.go:249-261). -/
def lineStringFromXY (xy : List α) : List (α × α) :=
  if xy.length < 2 then [] else pointsFromXY xy

/-- The per-`ends` iteration of the reconstruction loops: one segment per
ends entry, each starting where the previous one stopped. -/
def segmentsFromEnds (xy : List α) : Nat → List Nat → List (List (α × α))
  | _, [] => []
  | start, e :: rest => segmentFromXY xy start e :: segmentsFromEnds xy e rest

/-- `polygonFromXYEnds` (geometry.go:296-333). -/
def polygonFromXYEnds (xy : List α) (ends : List Nat) : List (List (α × α)) :=
  if xy.length < 2 then []
  else if ends = [] then [pointsFromXY xy]
  else segmentsFromEnds xy 0 ends

/-- `multiLineStringFromXYEnds` (geometry.go:263-294). -/
def multiLineStringFromXYEnds (xy : List α) (ends : List Nat) : List (List (α × α)) :=
  if xy.length < 2 ∨ ends = [] then
    if 2 ≤ xy.length then [pointsFromXY xy] else []
  else segmentsFromEnds xy 0 ends

/-- The loop body of `multiPolygonFromParts` (geometry.go:347-355): read
one part as a polygon, dropping it when empty. -/
def partPoly (p : FGBGeom α) : Option (List (List (α × α))) :=
  let poly := polygonFromXYEnds p.xy p.ends
  if poly.isEmpty then none else some poly

/-- `multiPolygonFromParts` (geometry.go:335-358): with no parts, fall
back to reading the node itself as a polygon; otherwise read each part as
a polygon, dropping empty ones. -/
def multiPolygonFromParts (xy : List α) (ends : List Nat) (parts : List (FGBGeom α)) :
    List (List (List (α × α))) :=
  match parts with
  | [] =>
    let poly := polygonFromXYEnds xy ends
    if poly.isEmpty then [] else [poly]
  | _ => parts.filterMap partPoly

end GeometryDefs

mutual

/-- `geometryToFGB` (geometry.go:37-117): pack an orb geometry into a
FlatGeobuf node.  `orb.Ring` packs as a Polygon with one end;
`orb.Bound` packs as the synthesized rectangle polygon; Collection
children are packed recursively (a child is skipped only when its own
conversion yields nil, which cannot happen for the constructors modelled
here). -/
def geometryToFGB {α : Type} : Geom α → FGBGeom α
  | .point p => .mk .point [p.1, p.2] [] []
  | .multiPoint ps => .mk .multiPoint (flatXY ps) [] []
  | .lineString ps => .mk .lineString (flatXY ps) [] []
  | .multiLineString ls =>
    .mk .multiLineString (multiLineStringToXYEnds ls).1 (multiLineStringToXYEnds ls).2 []
  | .ring r => .mk .polygon (flatXY r) [r.length % 2 ^ 32] []
  | .polygon rs => .mk .polygon (polygonToXYEnds rs).1 (polygonToXYEnds rs).2 []
  | .multiPolygon ps =>
    .mk .multiPolygon [] []
      (ps.map fun rs => .mk .polygon (polygonToXYEnds rs).1 (polygonToXYEnds rs).2 [])
  | .collection gs => .mk .geometryCollection [] [] (geomListToFGB gs)
  | .bound mn mx =>
    .mk .polygon (polygonToXYEnds (boundToPolygon mn mx)).1
      (polygonToXYEnds (boundToPolygon mn mx)).2 []

def geomListToFGB {α : Type} : List (Geom α) → List (FGBGeom α)
  | [] => []
  | g :: gs => geometryToFGB g :: geomListToFGB gs

end

mutual

/-- `geometryFromFGB` (geometry.go:120-152): unpack a FlatGeobuf node by
its type tag; unknown tags give nil. -/
def geometryFromFGB {α : Type} [Inhabited α] : FGBGeom α → Option (Geom α)
  | .mk ty xy ends parts =>
    match ty with
    | .point => some (.point (pointFromXY xy))
    | .multiPoint => some (.multiPoint (multiPointFromXY xy))
    | .lineString => some (.lineString (lineStringFromXY xy))
    | .multiLineString => some (.multiLineString (multiLineStringFromXYEnds xy ends))
    | .polygon => some (.polygon (polygonFromXYEnds xy ends))
    | .multiPolygon => some (.multiPolygon (multiPolygonFromParts xy ends parts))
    | .geometryCollection => some (.collection (collectionFromParts parts))
    | .unknown => none

/-- `collectionFromParts` (geometry.go:360-378): unpack each part
recursively, dropping nil results; empty parts give the empty
Collection. -/
def collectionFromParts {α : Type} [Inhabited α] : List (FGBGeom α) → List (Geom α)
  | [] => []
  | p :: ps =>
    match geometryFromFGB p with
    | some g => g :: collectionFromParts ps
    | none => collectionFromParts ps

end

section GeometryLemmas

variable {α : Type}

/-- Total vertex count of a ring/line list. -/
def totalPts (xss : List (List (α × α))) : Nat :=
  (xss.map List.length).sum

/-- The `ends` values produced by the packing fold, starting from the
uint32 cumulative counter `c`. -/
def endsFrom (c : Nat) : List (List (α × α)) → List Nat
  | [] => []
  | r :: rs => ((c + r.length) % 2 ^ 32) :: endsFrom ((c + r.length) % 2 ^ 32) rs

/-- The final uint32 cumulative counter of the packing fold. -/
def cumFrom (c : Nat) : List (List (α × α)) → Nat
  | [] => c
  | r :: rs => cumFrom ((c + r.length) % 2 ^ 32) rs

theorem flatXY_cons (p : α × α) (ps : List (α × α)) :
    flatXY (p :: ps) = p.1 :: p.2 :: flatXY ps := by
  simp [flatXY]

theorem flatXY_length (ps : List (α × α)) : (ps.flatMap fun p => [p.1, p.2]).length = 2 * ps.length := by
  induction ps with
  | nil => rfl
  | cons p ps ih =>
    simp only [List.flatMap_cons, List.length_append, ih, List.length_cons]
    simp
    omega

theorem polygonToXYEnds_go (poly : List (List (α × α))) :
    ∀ (xy0 : List α) (ends0 : List Nat) (c0 : Nat),
      poly.foldl
        (fun (st : List α × List Nat × Nat) r =>
          let cum := (st.2.2 + r.length) % 2 ^ 32
          (st.1 ++ flatXY r, st.2.1 ++ [cum], cum))
        (xy0, ends0, c0) =
      (xy0 ++ poly.flatMap flatXY, ends0 ++ endsFrom c0 poly, cumFrom c0 poly) := by
  induction poly with
  | nil => intro xy0 ends0 c0; simp [endsFrom, cumFrom]
  | cons r rs ih =>
    intro xy0 ends0 c0
    simp only [List.foldl_cons, List.flatMap_cons, endsFrom, cumFrom]
    rw [ih]
    simp [List.append_assoc]

theorem polygonToXYEnds_eq (poly : List (List (α × α))) :
    polygonToXYEnds poly = (poly.flatMap flatXY, endsFrom 0 poly) := by
  unfold polygonToXYEnds
  rw [polygonToXYEnds_go]
  simp

theorem flatMapXY_length (rs : List (List (α × α))) :
    (rs.flatMap flatXY).length = 2 * totalPts rs := by
  induction rs with
  | nil => rfl
  | cons r rs ih =>
    simp only [List.flatMap_cons, List.length_append, ih, totalPts, List.map_cons,
      List.sum_cons, flatXY]
    rw [flatXY_length]
    omega

theorem getElem?_append_mid (pre mid post : List α) (i : Nat) (hi : i < mid.length) :
    (pre ++ mid ++ post)[pre.length + i]? = mid[i]? := by
  rw [List.append_assoc, List.getElem?_append_right (Nat.le_add_right _ _)]
  rw [Nat.add_sub_cancel_left, List.getElem?_append, if_pos hi]

theorem segLoop_exact (r : List (α × α)) :
    ∀ (pre post : List α) (s : Nat), pre.length = 2 * s →
      segLoop (pre ++ flatXY r ++ post) s r.length = r := by
  induction r with
  | nil => intro pre post s _; rfl
  | cons p r' ih =>
    intro pre post s hpre
    rw [flatXY_cons]
    have h1 : (pre ++ (p.1 :: p.2 :: flatXY r') ++ post)[2 * s]? = some p.1 := by
      have hidx : 2 * s = pre.length + 0 := by omega
      rw [hidx, getElem?_append_mid pre _ post 0 (by simp)]
      simp
    have h2 : (pre ++ (p.1 :: p.2 :: flatXY r') ++ post)[2 * s + 1]? = some p.2 := by
      have hidx : 2 * s + 1 = pre.length + 1 := by omega
      rw [hidx, getElem?_append_mid pre _ post 1 (by simp)]
      simp
    simp only [List.length_cons, segLoop, h1, h2]
    have hassoc : pre ++ (p.1 :: p.2 :: flatXY r') ++ post =
        (pre ++ [p.1, p.2]) ++ flatXY r' ++ post := by
      simp [List.append_assoc]
    rw [hassoc]
    rw [ih (pre ++ [p.1, p.2]) post (s + 1) (by simp [hpre]; omega)]

theorem segmentFromXY_exact (r : List (α × α)) (pre post : List α) (s : Nat)
    (hpre : pre.length = 2 * s) :
    segmentFromXY (pre ++ flatXY r ++ post) s (s + r.length) = r := by
  unfold segmentFromXY
  rw [Nat.add_sub_cancel_left]
  exact segLoop_exact r pre post s hpre

theorem pointsFromXY_flatXY (ps : List (α × α)) : pointsFromXY (flatXY ps) = ps := by
  unfold pointsFromXY
  have hlen : ((flatXY ps).length + 1) / 2 = ps.length := by
    have := flatXY_length ps
    simp only [flatXY] at *
    omega
  rw [hlen]
  have h := segmentFromXY_exact ps [] [] 0 rfl
  simpa using h

theorem segmentsFromEnds_exact (rs : List (List (α × α))) :
    ∀ (pre post : List α) (s : Nat), pre.length = 2 * s → s + totalPts rs < 2 ^ 32 →
      segmentsFromEnds (pre ++ rs.flatMap flatXY ++ post) s (endsFrom s rs) = rs := by
  induction rs with
  | nil => intro pre post s _ _; rfl
  | cons r rs' ih =>
    intro pre post s hpre hlt
    have htot : totalPts (r :: rs') = r.length + totalPts rs' := by simp [totalPts]
    have hmod : (s + r.length) % 2 ^ 32 = s + r.length :=
      Nat.mod_eq_of_lt (by omega)
    simp only [endsFrom, hmod, segmentsFromEnds, List.flatMap_cons]
    refine congrArg₂ List.cons ?_ ?_
    · have hassoc : pre ++ (flatXY r ++ rs'.flatMap flatXY) ++ post =
          pre ++ flatXY r ++ (rs'.flatMap flatXY ++ post) := by
        simp [List.append_assoc]
      rw [hassoc]
      exact segmentFromXY_exact r pre _ s hpre
    · have hassoc : pre ++ (flatXY r ++ rs'.flatMap flatXY) ++ post =
          (pre ++ flatXY r) ++ rs'.flatMap flatXY ++ post := by
        simp [List.append_assoc]
      rw [hassoc]
      exact ih (pre ++ flatXY r) post (s + r.length)
        (by
          rw [List.length_append, hpre]
          simp only [flatXY]
          rw [flatXY_length]
          omega)
        (by omega)

theorem polygon_roundtrip_core (rs : List (List (α × α))) (h1 : 1 ≤ totalPts rs)
    (h2 : totalPts rs < 2 ^ 32) :
    polygonFromXYEnds (polygonToXYEnds rs).1 (polygonToXYEnds rs).2 = rs := by
  rw [polygonToXYEnds_eq]
  cases rs with
  | nil => simp [totalPts] at h1
  | cons r rs' =>
    unfold polygonFromXYEnds
    rw [if_neg (by rw [flatMapXY_length]; omega), if_neg (by simp [endsFrom])]
    have h := segmentsFromEnds_exact (r :: rs') [] [] 0 rfl (by omega)
    simpa using h

theorem mls_roundtrip_core (ls : List (List (α × α))) (h1 : 1 ≤ totalPts ls)
    (h2 : totalPts ls < 2 ^ 32) :
    multiLineStringFromXYEnds (polygonToXYEnds ls).1 (polygonToXYEnds ls).2 = ls := by
  rw [polygonToXYEnds_eq]
  cases ls with
  | nil => simp [totalPts] at h1
  | cons r ls' =>
    unfold multiLineStringFromXYEnds
    rw [if_neg (by
      rintro (hc | hc)
      · rw [flatMapXY_length] at hc
        omega
      · simp [endsFrom] at hc)]
    have h := segmentsFromEnds_exact (r :: ls') [] [] 0 rfl (by omega)
    simpa using h

end GeometryLemmas

mutual

/-- The geometries whose pack/unpack round trip is exact: the seven
supported variants (no Ring, no Bound, recursively inside collections),
with no aggregate that has parts but zero total vertices (such degenerate
aggregates are collapsed or dropped by the unpacker), and vertex counts
below 2^32 (the `ends` array is uint32). -/
def rtOk {α : Type} : Geom α → Bool
  | .point _ => true
  | .multiPoint _ => true
  | .lineString _ => true
  | .multiLineString ls =>
    (ls.isEmpty || decide (1 ≤ totalPts ls)) && decide (totalPts ls < 2 ^ 32)
  | .polygon rs =>
    (rs.isEmpty || decide (1 ≤ totalPts rs)) && decide (totalPts rs < 2 ^ 32)
  | .multiPolygon ps =>
    ps.all fun rs => decide (1 ≤ totalPts rs) && decide (totalPts rs < 2 ^ 32)
  | .collection gs => rtOkList gs
  | .ring _ => false
  | .bound _ _ => false

def rtOkList {α : Type} : List (Geom α) → Bool
  | [] => true
  | g :: gs => rtOk g && rtOkList gs

end

theorem multiPointFromXY_flatXY {α : Type} (ps : List (α × α)) :
    multiPointFromXY (flatXY ps) = ps := by
  cases ps with
  | nil => rfl
  | cons p ps' =>
    unfold multiPointFromXY
    rw [if_neg (by
      simp only [flatXY]
      rw [flatXY_length]
      simp only [List.length_cons]
      omega)]
    exact pointsFromXY_flatXY _

theorem lineStringFromXY_flatXY {α : Type} (ps : List (α × α)) :
    lineStringFromXY (flatXY ps) = ps := by
  cases ps with
  | nil => rfl
  | cons p ps' =>
    unfold lineStringFromXY
    rw [if_neg (by
      simp only [flatXY]
      rw [flatXY_length]
      simp only [List.length_cons]
      omega)]
    exact pointsFromXY_flatXY _

theorem multiPolygonParts_roundtrip {α : Type} (qs : List (List (List (α × α))))
    (hq : ∀ rs ∈ qs, 1 ≤ totalPts rs ∧ totalPts rs < 2 ^ 32) :
    ((qs.map fun rs => FGBGeom.mk GeometryType.polygon (polygonToXYEnds rs).1
        (polygonToXYEnds rs).2 []).filterMap partPoly) = qs := by
  induction qs with
  | nil => rfl
  | cons rs qs' ih =>
    have h0 := hq rs (by simp)
    have hhead : partPoly (FGBGeom.mk GeometryType.polygon (polygonToXYEnds rs).1
        (polygonToXYEnds rs).2 ([] : List (FGBGeom α))) = some rs := by
      unfold partPoly
      simp only [FGBGeom.xy, FGBGeom.ends]
      rw [polygon_roundtrip_core rs h0.1 h0.2]
      have hne : rs.isEmpty = false := by
        cases rs with
        | nil => simp [totalPts] at h0
        | cons r rs'' => rfl
      simp [hne]
    simp only [List.map_cons, List.filterMap_cons, hhead]
    rw [ih fun r hr => hq r (by simp [hr])]

mutual

/-- Pack-then-unpack is the identity on all `rtOk` geometries. -/
theorem rt_geom {α : Type} [Inhabited α] (g : Geom α) (h : rtOk g = true) :
    geometryFromFGB (geometryToFGB g) = some g := by
  cases g with
  | point p => simp [geometryToFGB, geometryFromFGB, pointFromXY]
  | multiPoint ps =>
    simp only [geometryToFGB, geometryFromFGB, multiPointFromXY_flatXY]
  | lineString ps =>
    simp only [geometryToFGB, geometryFromFGB, lineStringFromXY_flatXY]
  | multiLineString ls =>
    simp only [rtOk, Bool.and_eq_true, Bool.or_eq_true, decide_eq_true_eq] at h
    obtain ⟨h1, h2⟩ := h
    cases ls with
    | nil =>
      simp [geometryToFGB, geometryFromFGB, multiLineStringToXYEnds, polygonToXYEnds_eq,
        multiLineStringFromXYEnds, endsFrom]
    | cons l ls' =>
      have h1' : 1 ≤ totalPts (l :: ls') := by
        rcases h1 with h1 | h1
        · simp at h1
        · exact h1
      simp only [geometryToFGB, geometryFromFGB, multiLineStringToXYEnds]
      rw [mls_roundtrip_core _ h1' h2]
  | polygon rs =>
    simp only [rtOk, Bool.and_eq_true, Bool.or_eq_true, decide_eq_true_eq] at h
    obtain ⟨h1, h2⟩ := h
    cases rs with
    | nil =>
      simp [geometryToFGB, geometryFromFGB, polygonToXYEnds_eq, polygonFromXYEnds, endsFrom]
    | cons r rs' =>
      have h1' : 1 ≤ totalPts (r :: rs') := by
        rcases h1 with h1 | h1
        · simp at h1
        · exact h1
      simp only [geometryToFGB, geometryFromFGB]
      rw [polygon_roundtrip_core _ h1' h2]
  | multiPolygon ps =>
    simp only [rtOk, List.all_eq_true, Bool.and_eq_true, decide_eq_true_eq] at h
    simp only [geometryToFGB, geometryFromFGB]
    cases ps with
    | nil => simp [multiPolygonFromParts, polygonFromXYEnds]
    | cons q qs =>
      simp only [multiPolygonFromParts, List.map_cons]
      rw [show ((FGBGeom.mk GeometryType.polygon (polygonToXYEnds q).1 (polygonToXYEnds q).2
          ([] : List (FGBGeom α))) :: qs.map fun rs => FGBGeom.mk GeometryType.polygon
          (polygonToXYEnds rs).1 (polygonToXYEnds rs).2 []) =
        ((q :: qs).map fun rs => FGBGeom.mk GeometryType.polygon (polygonToXYEnds rs).1
          (polygonToXYEnds rs).2 []) from by simp]
      rw [multiPolygonParts_roundtrip (q :: qs) h]
  | collection gs =>
    simp only [rtOk] at h
    simp only [geometryToFGB, geometryFromFGB]
    rw [rt_list gs h]
  | ring r => simp [rtOk] at h
  | bound mn mx => simp [rtOk] at h

theorem rt_list {α : Type} [Inhabited α] (gs : List (Geom α)) (h : rtOkList gs = true) :
    collectionFromParts (geomListToFGB gs) = gs := by
  cases gs with
  | nil => rfl
  | cons g gs' =>
    simp only [rtOkList, Bool.and_eq_true] at h
    simp only [geomListToFGB, collectionFromParts]
    rw [rt_geom g h.1, rt_list gs' h.2]

end

/-- C3 counterexample: a MultiLineString containing one empty LineString
packs to an empty coordinate buffer with `ends = [0]`, which unpacks to
the empty MultiLineString — the part structure is not reproduced. -/
theorem c3_counterexample :
    geometryFromFGB (geometryToFGB (Geom.multiLineString ([[]] : List (List (Int × Int))))) =
        some (Geom.multiLineString ([] : List (List (Int × Int)))) ∧
      Geom.multiLineString ([] : List (List (Int × Int))) ≠ Geom.multiLineString [[]] := by
  constructor
  · rfl
  · simp

/-- C3 (amended): pack-then-unpack reproduces the geometry exactly for
every geometry built from the seven supported variants whose aggregates
are non-degenerate (`rtOk`: no MultiLineString/Polygon with parts but
zero total vertices, no MultiPolygon member with zero total vertices, the
same recursively inside Collections, and vertex counts below the uint32
`ends` range); a Rectangle (`orb.Bound`) round-trips to the equivalent
5-point closed Polygon rather than a Rectangle. -/
theorem c3_roundtrip :
    (∀ {α : Type} [Inhabited α] (g : Geom α), rtOk g = true →
        geometryFromFGB (geometryToFGB g) = some g) ∧
      (∀ {α : Type} [Inhabited α] (mn mx : α × α),
        geometryFromFGB (geometryToFGB (Geom.bound mn mx)) =
          some (Geom.polygon [[mn, (mx.1, mn.2), mx, (mn.1, mx.2), mn]])) := by
  constructor
  · intro α _ g h
    exact rt_geom g h
  · intro α _ mn mx
    simp only [geometryToFGB, geometryFromFGB]
    rw [polygon_roundtrip_core (boundToPolygon mn mx)
      (by simp [boundToPolygon, totalPts]) (by norm_num [boundToPolygon, totalPts])]
    rfl

theorem c3_roundtrip_witness :
    geometryFromFGB (geometryToFGB
        (Geom.collection [Geom.point ((1 : Int), (2 : Int)),
          Geom.polygon [[(0, 0), (1, 0), (1, 1), (0, 0)]]])) =
      some (Geom.collection [Geom.point ((1 : Int), (2 : Int)),
        Geom.polygon [[(0, 0), (1, 0), (1, 1), (0, 0)]]]) ∧
    geometryFromFGB (geometryToFGB (Geom.bound ((0 : Int), (0 : Int)) (10, 10))) =
      some (Geom.polygon [[(0, 0), (10, 0), (10, 10), (0, 10), (0, 0)]]) :=
  ⟨c3_roundtrip.1 _ (by decide), c3_roundtrip.2 (0, 0) (10, 10)⟩

theorem polygonFromXYEnds_isEmpty_false {α : Type} (xy : List α) (ends : List Nat)
    (h : 2 ≤ xy.length) : (polygonFromXYEnds xy ends).isEmpty = false := by
  unfold polygonFromXYEnds
  rw [if_neg (by omega)]
  cases hends : ends with
  | nil => simp
  | cons e rest =>
    rw [if_neg (by simp)]
    simp [segmentsFromEnds]

/-- C6 counterexample: a GeometryCollection node with empty parts but a
non-empty xy buffer unpacks to the **empty** Collection — there is no
single-Polygon fallback for collections (only for MultiPolygon). -/
theorem c6_counterexample :
    geometryFromFGB (FGBGeom.mk GeometryType.geometryCollection [0, 0] [] [] : FGBGeom Int) =
        some (Geom.collection []) ∧
      Geom.collection ([] : List (Geom Int)) ≠
        Geom.collection [Geom.polygon (polygonFromXYEnds [0, 0] [])] := by
  constructor
  · rfl
  · simp

/-- C6 (amended): the part-less fallback exists only for MultiPolygon
nodes: with empty parts and at least two xy values, unpacking yields the
MultiPolygon containing the node read as a single Polygon; a
GeometryCollection node with empty parts always unpacks to the empty
Collection, whatever its xy buffer holds. -/
theorem c6_partless_fallback :
    (∀ {α : Type} [Inhabited α] (xy : List α) (ends : List Nat), 2 ≤ xy.length →
        geometryFromFGB (FGBGeom.mk GeometryType.multiPolygon xy ends []) =
          some (Geom.multiPolygon [polygonFromXYEnds xy ends])) ∧
      (∀ {α : Type} [Inhabited α] (xy : List α) (ends : List Nat),
        geometryFromFGB (FGBGeom.mk GeometryType.geometryCollection xy ends []) =
          some (Geom.collection [])) := by
  constructor
  · intro α _ xy ends hxy
    simp only [geometryFromFGB, multiPolygonFromParts]
    rw [polygonFromXYEnds_isEmpty_false xy ends hxy]
    simp
  · intro α _ xy ends
    rfl

theorem c6_partless_fallback_witness :
    geometryFromFGB (FGBGeom.mk GeometryType.multiPolygon [0, 0] [] [] : FGBGeom Int) =
      some (Geom.multiPolygon [polygonFromXYEnds [0, 0] []]) :=
  c6_partless_fallback.1 [0, 0] [] (by decide)

/-- The two-ring polygon of the spec's concrete scenario C. -/
def scenarioCPolygon : List (List (Int × Int)) :=
  [[(0, 0), (10, 0), (10, 10), (0, 10), (0, 0)], [(2, 2), (8, 2), (8, 8), (2, 8), (2, 2)]]

theorem totalPts_take_le {α : Type} (rs : List (List (α × α))) (k : Nat) :
    totalPts (rs.take k) ≤ totalPts rs := by
  have hsplit : totalPts rs = totalPts (rs.take k) + totalPts (rs.drop k) := by
    conv_lhs => rw [← List.take_append_drop k rs]
    simp [totalPts]
  omega

theorem get_eq_of_getElem? {β : Type} (l : List β) (i : Nat) (h : i < l.length) (x : β)
    (hx : l[i]? = some x) : l.get ⟨i, h⟩ = x := by
  have h2 : l[i]? = some (l.get ⟨i, h⟩) := List.getElem?_eq_getElem h
  rw [hx] at h2
  exact ((Option.some.injEq _ _).mp h2).symm

theorem endsFrom_getElem? {α : Type} (rs : List (List (α × α))) :
    ∀ (c i : Nat), i < (endsFrom c rs).length →
      (endsFrom c rs)[i]? = some ((c + totalPts (rs.take (i + 1))) % 2 ^ 32) := by
  induction rs with
  | nil => intro c i h; simp [endsFrom] at h
  | cons r rs' ih =>
    intro c i h
    cases i with
    | zero => simp [endsFrom, totalPts]
    | succ i' =>
      simp only [endsFrom, List.getElem?_cons_succ]
      rw [ih _ i' (by simpa [endsFrom] using h)]
      congr 1
      rw [Nat.mod_add_mod]
      congr 1
      simp only [List.take_succ_cons, totalPts, List.map_cons, List.sum_cons]
      omega

/-- C7: packing a Polygon concatenates all rings' coordinates, exterior
ring first then holes in input order, and `ends[i]` is the cumulative
vertex count after ring `i` (stored as uint32, hence exact whenever the
polygon's total vertex count fits in 32 bits); in particular the
two-ring scenario-C polygon packs to 20 coordinates with
`ends = [5, 10]`. -/
theorem c7_polygon_xy_ends :
    (∀ {α : Type} (poly : List (List (α × α))),
        (polygonToXYEnds poly).1 = poly.flatMap flatXY ∧
        (∀ (i : Nat) (h : i < (polygonToXYEnds poly).2.length),
          (polygonToXYEnds poly).2.get ⟨i, h⟩ = totalPts (poly.take (i + 1)) % 2 ^ 32) ∧
        (totalPts poly < 2 ^ 32 →
          ∀ (i : Nat) (h : i < (polygonToXYEnds poly).2.length),
            (polygonToXYEnds poly).2.get ⟨i, h⟩ = totalPts (poly.take (i + 1)))) ∧
      ((polygonToXYEnds scenarioCPolygon).1.length = 20 ∧
        (polygonToXYEnds scenarioCPolygon).2 = [5, 10]) := by
  constructor
  · intro α poly
    have key : (polygonToXYEnds poly).2 = endsFrom 0 poly := by rw [polygonToXYEnds_eq]
    refine ⟨by rw [polygonToXYEnds_eq], ?_, ?_⟩
    · intro i h
      have h' : i < (endsFrom 0 poly).length := key ▸ h
      refine get_eq_of_getElem? _ i h _ ?_
      rw [key, endsFrom_getElem? poly 0 i h']
      simp
    · intro hlt i h
      have h' : i < (endsFrom 0 poly).length := key ▸ h
      have hle := totalPts_take_le poly (i + 1)
      refine get_eq_of_getElem? _ i h _ ?_
      rw [key, endsFrom_getElem? poly 0 i h', Nat.zero_add,
        Nat.mod_eq_of_lt (by omega)]
  · exact ⟨by decide, by decide⟩

theorem c7_polygon_xy_ends_witness :
    (polygonToXYEnds scenarioCPolygon).2.get
        ⟨1, (by decide : 1 < (polygonToXYEnds scenarioCPolygon).2.length)⟩ =
      totalPts (scenarioCPolygon.take 2) % 2 ^ 32 :=
  (c7_polygon_xy_ends.1 scenarioCPolygon).2.1 1 _

end OrbFlatgeobuf
